import Mathlib

set_option maxRecDepth 10000

/-!
Verification of the lex-go tuple codec (package `tuple`), its range
derivation (`LexRangeKeys`) and the subspace wrapper (package `subspace`).

Bytes are modelled as `Nat` (with `< 256` side conditions where relevant),
byte slices as `List Nat`, Go `int64` as `Int` with explicit
two's-complement wrapping (`% 2^64`), and Go panics / errors as `Option`,
`Except` or dedicated result types.
-/

namespace LexGo

/-- Go `sizeLimits[n] = 1<<(n*8) - 1`. -/
def sizeLimits (n : Nat) : Nat := 2 ^ (8 * n) - 1

/-- Loop body of Go `bisectLeft` (`for sizeLimits[n] < u { n += 1 }`);
the fuel bounds the loop, which in Go stops at index 8 for every uint64. -/
def bisectLeftAux (u : Nat) : Nat → Nat → Nat
  | 0, n => n
  | fuel + 1, n => if sizeLimits n < u then bisectLeftAux u fuel (n + 1) else n

/-- Go `bisectLeft`: smallest `n` with `sizeLimits[n] ≥ u`. -/
def bisectLeft (u : Nat) : Nat := bisectLeftAux u 9 0

/-- Big-endian bytes (k of them, least significant last) of a value;
models the buffer written by `binary.Write(.., binary.BigEndian, i)`. -/
def beBytes : Nat → Nat → List Nat
  | 0, _ => []
  | k + 1, v => beBytes k (v / 256) ++ [v % 256]

/-- Big-endian value of a byte list; models `binary.Read(.., BigEndian, ..)`
before sign reinterpretation. -/
def beVal (l : List Nat) : Nat := l.foldl (fun acc b => acc * 256 + b) 0

/-- Two's-complement wrap into the int64 range; models Go int64 overflow. -/
def wrap64 (x : Int) : Int := (x + 2 ^ 63) % 2 ^ 64 - 2 ^ 63

/-- Reinterpret a uint64 bit pattern as int64 (Go conversion `int64(u)`). -/
def toInt64 (v : Nat) : Int := wrap64 (v : Int)

/-- Go `encodeInt`: zero is the bare tag 0x14; a positive value gets tag
`0x14 + n` and the low `n` bytes of its big-endian form; a negative value
gets tag `0x14 - n` and the low `n` bytes of the (wrapping) big-endian form
of `sizeLimits[n] + i`.  `n` is `bisectLeft` of the magnitude, where the
magnitude of a negative int64 `i` is `uint64(-i) = (-i) mod 2^64`. -/
def encodeInt (i : Int) : List Nat :=
  if i = 0 then [20]
  else if 0 < i then
    let n := bisectLeft i.toNat
    (20 + n) :: (beBytes 8 i.toNat).drop (8 - n)
  else
    let n := bisectLeft ((-i) % 2 ^ 64).toNat
    (20 - n) :: (beBytes 8 ((2 ^ (8 * n) - 1 + i) % 2 ^ 64).toNat).drop (8 - n)

/-- `bytes.Replace(b, [0x00], [0x00, 0xFF], -1)`: escape embedded zeros. -/
def escapeBytes : List Nat → List Nat
  | [] => []
  | b :: rest => if b = 0 then 0 :: 255 :: escapeBytes rest else b :: escapeBytes rest

/-- Go `encodeBytes`: tag byte, escaped payload, 0x00 terminator. -/
def encodeBytes (code : Nat) (b : List Nat) : List Nat :=
  code :: (escapeBytes b ++ [0])

/-- The dynamic element types accepted by `Tuple.Pack` (Go `interface{}`);
`unsupported` stands for every other dynamic type, carrying its Go type
name.  String and byte-slice contents are byte lists (a Go string is its
UTF-8 bytes); a `lex.KeyConvertible` is represented by its `LexKey` bytes. -/
inductive Element where
  | nil
  | int64 (i : Int)
  | uint32 (v : Nat)
  | uint64 (v : Nat)
  | int (i : Int)
  | byte (v : Nat)
  | bytes (b : List Nat)
  | keyConv (b : List Nat)
  | str (s : List Nat)
  | unsupported (goType : String)
deriving DecidableEq

/-- The Go dynamic type name (`%T`) of an element. -/
def typeName : Element → String
  | .nil => "<nil>"
  | .int64 _ => "int64"
  | .uint32 _ => "uint32"
  | .uint64 _ => "uint64"
  | .int _ => "int"
  | .byte _ => "uint8"
  | .bytes _ => "[]uint8"
  | .keyConv _ => "lex.KeyConvertible"
  | .str _ => "string"
  | .unsupported g => g

/-- One arm of the type switch in `Tuple.Pack`; `none` is the panic arm.
Unsigned and narrower integers are converted to int64 exactly as Go's
`int64(e)` does (two's complement for uint64, value-preserving for the
rest). -/
def encodeElement : Element → Option (List Nat)
  | .nil => some [0]
  | .int64 i => some (encodeInt i)
  | .uint32 v => some (encodeInt (v : Int))
  | .uint64 v => some (encodeInt (toInt64 v))
  | .int i => some (encodeInt i)
  | .byte v => some (encodeInt (v : Int))
  | .bytes b => some (encodeBytes 1 b)
  | .keyConv b => some (encodeBytes 1 b)
  | .str s => some (encodeBytes 2 s)
  | .unsupported _ => none

/-- The panic raised by `Tuple.Pack`: element index and dynamic type. -/
structure PackError where
  index : Nat
  goType : String
deriving DecidableEq

instance {ε α : Type} [DecidableEq ε] [DecidableEq α] : DecidableEq (Except ε α) := fun a b =>
  match a, b with
  | .ok x, .ok y => decidable_of_iff (x = y) (by simp)
  | .ok _, .error _ => isFalse (by simp)
  | .error _, .ok _ => isFalse (by simp)
  | .error e, .error f => decidable_of_iff (e = f) (by simp)

/-- `Tuple.Pack`: concatenate the element encodings in order; panic
(modelled as `.error`) at the first unsupported element, reporting its
index and type. -/
def packFrom : Nat → List Element → Except PackError (List Nat)
  | _, [] => .ok []
  | i, e :: rest =>
    match encodeElement e with
    | some bs =>
      match packFrom (i + 1) rest with
      | .ok tail => .ok (bs ++ tail)
      | .error err => .error err
    | none => .error ⟨i, typeName e⟩

def Pack (t : List Element) : Except PackError (List Nat) := packFrom 0 t

/-- The byte output of `Pack` on encodable elements. -/
def packList (t : List Element) : List Nat :=
  t.foldr (fun e acc => (encodeElement e).getD [] ++ acc) []

/-- `bytes.IndexByte(bp, 0x00)`: index of the first zero, -1 when absent. -/
def indexZero : List Nat → Int
  | [] => -1
  | b :: rest =>
    if b = 0 then 0
    else if indexZero rest = -1 then -1 else indexZero rest + 1

/-- The loop of Go `findTerminator` (fuelled; every iteration drops at
least one byte, so fuel `length + 1` is never exhausted). -/
def findTermLoop : Nat → List Nat → Int → Int
  | 0, _, length => length
  | fuel + 1, bp, length =>
    let idx := indexZero bp
    if idx + 1 = (bp.length : Int) ∨ ¬ bp[(idx + 1).toNat]? = some 255 then
      length + idx
    else
      findTermLoop fuel (bp.drop (idx + 2).toNat) (length + idx + 2)

/-- Go `findTerminator`. -/
def findTerminator (b : List Nat) : Int := findTermLoop (b.length + 1) b 0

/-- `bytes.Replace(b, [0x00, 0xFF], [0x00], -1)`: undo the escaping
(leftmost, non-overlapping). -/
def unescape : List Nat → List Nat
  | [] => []
  | [b] => [b]
  | b :: c :: rest =>
    if b = 0 ∧ c = 255 then 0 :: unescape rest else b :: unescape (c :: rest)

/-- Go `decodeBytes` (and `decodeString`, which only converts the result
to `string`); `none` models the slice-bounds panic of `b[1:idx+1]` when no
terminator is found (`idx = -1`). -/
def decodeBytes (b : List Nat) : Option (List Nat × Nat) :=
  let idx := findTerminator (b.drop 1)
  if idx + 1 < 1 then none
  else some (unescape ((b.drop 1).take idx.toNat), (idx + 2).toNat)

/-- Go `decodeInt`; `none` models the slice-bounds panic of `b[1:n+1]` when
the payload is shorter than the tag announces. -/
def decodeInt (b : List Nat) : Option (Int × Nat) :=
  match b with
  | [] => none
  | b0 :: _ =>
    if b0 = 20 then some (0, 1)
    else
      let n := if b0 < 20 then 20 - b0 else b0 - 20
      if b.length < n + 1 then none
      else
        let bp := List.replicate (8 - n) 0 ++ (b.drop 1).take n
        let ret := toInt64 (beVal bp)
        if b0 < 20 then some (wrap64 (ret - toInt64 (2 ^ (8 * n) - 1)), n + 1)
        else some (ret, n + 1)

/-- Outcome of Go `Unpack`: a decoded tuple, the unknown-typecode error
(carrying the offending byte it formats), or a runtime panic. -/
inductive UnpackResult where
  | ok (t : List Element)
  | err (typecode : Nat)
  | panic
deriving DecidableEq

/-- The loop of Go `Unpack` over the remaining bytes (fuelled; every
element consumes at least one byte). -/
def unpackLoop : Nat → List Nat → List Element → UnpackResult
  | _, [], acc => .ok acc
  | 0, _ :: _, _ => .panic
  | fuel + 1, b0 :: brest, acc =>
    if b0 = 0 then unpackLoop fuel brest (acc ++ [.nil])
    else if b0 = 1 then
      match decodeBytes (b0 :: brest) with
      | none => .panic
      | some (v, off) => unpackLoop fuel ((b0 :: brest).drop off) (acc ++ [.bytes v])
    else if b0 = 2 then
      match decodeBytes (b0 :: brest) with
      | none => .panic
      | some (v, off) => unpackLoop fuel ((b0 :: brest).drop off) (acc ++ [.str v])
    else if 12 ≤ b0 ∧ b0 ≤ 28 then
      match decodeInt (b0 :: brest) with
      | none => .panic
      | some (v, off) => unpackLoop fuel ((b0 :: brest).drop off) (acc ++ [.int64 v])
    else .err b0

/-- Go `Unpack`. -/
def Unpack (b : List Nat) : UnpackResult := unpackLoop (b.length + 1) b []

/-- `Unpack` continued from the middle of a buffer with an accumulator. -/
def UnpackFrom (b : List Nat) (acc : List Element) : UnpackResult :=
  unpackLoop (b.length + 1) b acc

/-- `Tuple.LexRangeKeys`: `(pack ++ 0x00, pack ++ 0xFF)`; the `Except`
threads the panic of `Pack`. -/
def LexRangeKeys (t : List Element) : Except PackError (List Nat × List Nat) :=
  (Pack t).map (fun p => (p ++ [0], p ++ [255]))

/-- Outcome of `subspace.Unpack`: the "key is not in subspace" error, or
the result of `tuple.Unpack` on the remainder. -/
inductive SubspaceUnpack where
  | notInSubspace
  | decoded (r : UnpackResult)
deriving DecidableEq

/-- `subspace.Contains`: `bytes.HasPrefix(k.LexKey(), s.b)`. -/
def subContains (pre k : List Nat) : Bool := pre.isPrefixOf k

/-- `subspace.Unpack`: error unless the key starts with the prefix, else
`tuple.Unpack` of the remainder after the prefix. -/
def subUnpack (pre k : List Nat) : SubspaceUnpack :=
  if pre.isPrefixOf k then .decoded (Unpack (k.drop pre.length)) else .notInSubspace

/-- `subspace.Pack`: prefix ++ `tuple.Pack`. -/
def subPack (pre : List Nat) (t : List Element) : Except PackError (List Nat) :=
  (Pack t).map (fun p => pre ++ p)

/-! Spec-side order definitions (claim C1 compares these against the byte
output of `Pack`). -/

/-- Byte-lexicographic strict order on byte strings (a strict prefix is
smaller). -/
def bytesLtB : List Nat → List Nat → Bool
  | _, [] => false
  | [], _ :: _ => true
  | a :: as, b :: bs => if a < b then true else if a = b then bytesLtB as bs else false

def bytesLeB (a b : List Nat) : Bool := a == b || bytesLtB a b

/-- Spec-side definition (claim C1): element order — tag order
Null < ByteString < UnicodeString < Integer, byte-lexicographic within
strings, numeric within integers. -/
def elemLtSpec : Element → Element → Bool
  | .nil, .bytes _ => true
  | .nil, .str _ => true
  | .nil, .int64 _ => true
  | .bytes a, .bytes b => bytesLtB a b
  | .bytes _, .str _ => true
  | .bytes _, .int64 _ => true
  | .str a, .str b => bytesLtB a b
  | .str _, .int64 _ => true
  | .int64 i, .int64 j => decide (i < j)
  | _, _ => false

/-- Spec-side definition (claim C1): tuple order — element-wise, with a
strict prefix sorting before the longer tuple. -/
def tupleLtSpec : List Element → List Element → Bool
  | _, [] => false
  | [], _ :: _ => true
  | a :: as, b :: bs =>
    if elemLtSpec a b then true else if a = b then tupleLtSpec as bs else false

/-- Membership in the half-open byte range `[P ++ 0x00, P ++ 0xFF)`. -/
def rangeMemB (P K : List Nat) : Bool :=
  bytesLeB (P ++ [0]) K && bytesLtB K (P ++ [255])

/-- The values each supported dynamic type can hold in Go. -/
def elemOK : Element → Bool
  | .nil => true
  | .int64 i => decide (-(2 ^ 63) ≤ i ∧ i < 2 ^ 63)
  | .uint32 v => decide (v < 2 ^ 32)
  | .uint64 v => decide (v < 2 ^ 64)
  | .int i => decide (-(2 ^ 63) ≤ i ∧ i < 2 ^ 63)
  | .byte v => decide (v < 256)
  | .bytes b => b.all (fun x => decide (x < 256))
  | .keyConv b => b.all (fun x => decide (x < 256))
  | .str s => s.all (fun x => decide (x < 256))
  | .unsupported _ => false

/-- The canonical decoded variants: nil, int64, byte string, string. -/
def elemCanon : Element → Bool
  | .nil => true
  | .int64 _ => true
  | .bytes _ => true
  | .str _ => true
  | _ => false

def elemCV (e : Element) : Bool := elemCanon e && elemOK e

def elemEncodable (e : Element) : Bool := (encodeElement e).isSome

/-- The type normalization performed by a pack/unpack round trip. -/
def normalize : Element → Element
  | .uint32 v => .int64 (v : Int)
  | .uint64 v => .int64 (toInt64 v)
  | .int i => .int64 i
  | .byte v => .int64 (v : Int)
  | .keyConv b => .bytes b
  | e => e

/-- A packed stream is empty or starts with a tag byte `< 255`. -/
def tagHeadOk : List Nat → Bool
  | [] => true
  | h :: _ => decide (h < 255)

/-! ### Basic facts about `packList` and `Pack` -/

theorem packList_nil : packList [] = [] := rfl

theorem packList_cons (e : Element) (t : List Element) :
    packList (e :: t) = (encodeElement e).getD [] ++ packList t := rfl

theorem packList_append (a b : List Element) :
    packList (a ++ b) = packList a ++ packList b := by
  induction a with
  | nil => simp [packList_nil]
  | cons e a ih => simp [packList_cons, ih, List.append_assoc]

theorem packFrom_ok (t : List Element) (h : ∀ e ∈ t, elemEncodable e = true) :
    ∀ i, packFrom i t = .ok (packList t) := by
  induction t with
  | nil => intro i; rfl
  | cons e t ih =>
    intro i
    have he : elemEncodable e = true := h e (List.mem_cons_self e t)
    obtain ⟨bs, hbs⟩ := Option.isSome_iff_exists.mp he
    have ht : ∀ x ∈ t, elemEncodable x = true := fun x hx => h x (List.mem_cons_of_mem e hx)
    simp [packFrom, hbs, ih ht, packList_cons]

theorem Pack_ok (t : List Element) (h : ∀ e ∈ t, elemEncodable e = true) :
    Pack t = .ok (packList t) := packFrom_ok t h 0

theorem Pack_ok_eq (t : List Element) (h : ∀ e ∈ t, elemEncodable e = true)
    (bs : List Nat) (hbs : Pack t = .ok bs) : bs = packList t := by
  have := Pack_ok t h
  rw [this] at hbs
  exact (Except.ok.injEq _ _ |>.mp hbs.symm)

theorem elemEncodable_of_OK (e : Element) (h : elemOK e = true) : elemEncodable e = true := by
  cases e <;> simp_all [elemOK, elemEncodable, encodeElement]

theorem elemOK_of_CV (e : Element) (h : elemCV e = true) : elemOK e = true := by
  simp [elemCV] at h
  exact h.2

/-! ### The byte-lexicographic order -/

theorem bytesLtB_nil_right (a : List Nat) : bytesLtB a [] = false := by
  cases a <;> rfl

theorem bytesLtB_nil_left (b : Nat) (bs : List Nat) : bytesLtB [] (b :: bs) = true := rfl

theorem bytesLtB_cons (a b : Nat) (as bs : List Nat) :
    bytesLtB (a :: as) (b :: bs) =
      if a < b then true else if a = b then bytesLtB as bs else false := rfl

theorem bytesLtB_irrefl (a : List Nat) : bytesLtB a a = false := by
  induction a with
  | nil => rfl
  | cons x xs ih => simp [bytesLtB_cons, ih]

theorem bytesLtB_total (a b : List Nat) (h : a ≠ b) :
    bytesLtB a b = true ∨ bytesLtB b a = true := by
  induction a generalizing b with
  | nil =>
    cases b with
    | nil => exact absurd rfl h
    | cons y ys => left; rfl
  | cons x xs ih =>
    cases b with
    | nil => right; rfl
    | cons y ys =>
      by_cases hxy : x = y
      · subst hxy
        have hne : xs ≠ ys := by intro hc; exact h (by rw [hc])
        rcases ih ys hne with h1 | h1
        · left; simp [bytesLtB_cons, h1]
        · right; simp [bytesLtB_cons, h1]
      · rcases Nat.lt_or_ge x y with h1 | h1
        · left; simp [bytesLtB_cons, h1]
        · have h2 : y < x := Nat.lt_of_le_of_ne h1 (fun hc => hxy hc.symm)
          right; simp [bytesLtB_cons, h2]

theorem bytesLtB_cons_ne (a b : Nat) (as bs : List Nat) (h : a ≠ b) :
    bytesLtB (a :: as) (b :: bs) = decide (a < b) := by
  by_cases hlt : a < b <;> simp [bytesLtB_cons, hlt, h]

theorem bytesLtB_cons_self (a : Nat) (as bs : List Nat) :
    bytesLtB (a :: as) (a :: bs) = bytesLtB as bs := by
  simp [bytesLtB_cons]

theorem bytesLtB_append (P : List Nat) :
    ∀ Q s t, P.length = Q.length →
      (bytesLtB (P ++ s) (Q ++ t) = true ↔
        (bytesLtB P Q = true ∨ (P = Q ∧ bytesLtB s t = true))) := by
  induction P with
  | nil =>
    intro Q s t hlen
    cases Q with
    | nil => simp [bytesLtB_nil_right]
    | cons y ys => simp at hlen
  | cons x xs ih =>
    intro Q s t hlen
    cases Q with
    | nil => simp at hlen
    | cons y ys =>
      simp only [List.length_cons, Nat.add_right_cancel_iff] at hlen
      by_cases hxy : x = y
      · subst hxy
        simp only [List.cons_append, bytesLtB_cons_self, List.cons.injEq, true_and]
        exact ih ys s t hlen
      · simp only [List.cons_append]
        rw [bytesLtB_cons_ne _ _ _ _ hxy, bytesLtB_cons_ne _ _ _ _ hxy]
        constructor
        · intro h1
          left
          simpa using h1
        · rintro (h1 | ⟨h1, _⟩)
          · simpa using h1
          · exact absurd ((List.cons.injEq x xs y ys).mp h1).1 hxy

/-! ### Big-endian bytes -/

theorem beBytes_length (k : Nat) : ∀ v, (beBytes k v).length = k := by
  induction k with
  | zero => intro v; rfl
  | succ k ih => intro v; simp [beBytes, ih]

theorem beBytes_split (b : Nat) :
    ∀ a v, beBytes (a + b) v = beBytes a (v / 2 ^ (8 * b)) ++ beBytes b v := by
  induction b with
  | zero => intro a v; simp [beBytes]
  | succ b ih =>
    intro a v
    have h1 : a + (b + 1) = (a + b) + 1 := by omega
    rw [h1]
    show beBytes ((a + b) + 1) v = _
    rw [beBytes, ih a (v / 256)]
    have h2 : v / 256 / 2 ^ (8 * b) = v / 2 ^ (8 * (b + 1)) := by
      rw [Nat.div_div_eq_div_mul]
      congr 1
      rw [Nat.mul_add, Nat.pow_add]
      ring
    rw [h2, beBytes]
    simp [List.append_assoc]

theorem beBytes_drop (n v : Nat) (h : n ≤ 8) :
    (beBytes 8 v).drop (8 - n) = beBytes n v := by
  have h1 : beBytes 8 v = beBytes (8 - n) (v / 2 ^ (8 * n)) ++ beBytes n v := by
    conv_lhs => rw [show (8 : Nat) = (8 - n) + n by omega]
    exact beBytes_split n (8 - n) v
  rw [h1]
  have h2 := List.drop_left (beBytes (8 - n) (v / 2 ^ (8 * n))) (beBytes n v)
  rw [beBytes_length] at h2
  exact h2

theorem beVal_append (l1 l2 : List Nat) :
    beVal (l1 ++ l2) = l2.foldl (fun acc b => acc * 256 + b) (beVal l1) := by
  simp [beVal, List.foldl_append]

theorem beVal_snoc (l : List Nat) (a : Nat) : beVal (l ++ [a]) = beVal l * 256 + a := by
  simp [beVal_append, List.foldl]

theorem beVal_replicate_zero (k : Nat) : ∀ l, beVal (List.replicate k 0 ++ l) = beVal l := by
  induction k with
  | zero => intro l; simp
  | succ k ih =>
    intro l
    have h1 : List.replicate (k + 1) 0 = 0 :: List.replicate k 0 := rfl
    rw [h1]
    show beVal (0 :: (List.replicate k 0 ++ l)) = beVal l
    have h2 : beVal (0 :: (List.replicate k 0 ++ l)) = beVal (List.replicate k 0 ++ l) := by
      simp [beVal, List.foldl]
    rw [h2, ih]

theorem mod_mul_256 (v M : Nat) : v % (256 * M) = v / 256 % M * 256 + v % 256 := by
  have h1 : v % (256 * M) / 256 = v / 256 % M := Nat.mod_mul_right_div_self v 256 M
  have h2 : v % (256 * M) % 256 = v % 256 := Nat.mod_mod_of_dvd v ⟨M, rfl⟩
  have h3 : 256 * (v % (256 * M) / 256) + v % (256 * M) % 256 = v % (256 * M) :=
    Nat.div_add_mod _ 256
  omega

theorem pow_succ_256 (k : Nat) : 2 ^ (8 * (k + 1)) = 256 * 2 ^ (8 * k) := by
  rw [Nat.mul_add, Nat.pow_add]
  ring

theorem beVal_beBytes (k : Nat) : ∀ v, beVal (beBytes k v) = v % 2 ^ (8 * k) := by
  induction k with
  | zero => intro v; simp [beBytes, beVal, Nat.mod_one]
  | succ k ih =>
    intro v
    rw [beBytes, beVal_snoc, ih (v / 256), pow_succ_256, mod_mul_256]

theorem beBytes_inj (n v w : Nat) (hv : v < 2 ^ (8 * n)) (hw : w < 2 ^ (8 * n))
    (h : beBytes n v = beBytes n w) : v = w := by
  have h1 := beVal_beBytes n v
  have h2 := beVal_beBytes n w
  rw [h, h2] at h1
  rw [Nat.mod_eq_of_lt hv, Nat.mod_eq_of_lt hw] at h1
  exact h1.symm

theorem bytesLtB_single (a b : Nat) : bytesLtB [a] [b] = decide (a < b) := by
  by_cases h : a < b
  · simp [bytesLtB_cons, h]
  · by_cases h2 : a = b
    · simp [bytesLtB_cons, h, h2, bytesLtB_nil_right]
    · simp [bytesLtB_cons, h, h2]

theorem beBytes_mod (k : Nat) : ∀ v, beBytes k (v % 2 ^ (8 * k)) = beBytes k v := by
  induction k with
  | zero => intro v; rfl
  | succ k ih =>
    intro v
    rw [beBytes, beBytes]
    have hdvd : (256 : Nat) ∣ 2 ^ (8 * (k + 1)) := by
      rw [pow_succ_256]
      exact ⟨2 ^ (8 * k), rfl⟩
    have h1 : v % 2 ^ (8 * (k + 1)) % 256 = v % 256 := Nat.mod_mod_of_dvd v hdvd
    have h2 : v % 2 ^ (8 * (k + 1)) / 256 = v / 256 % 2 ^ (8 * k) := by
      have h3 : v % (256 * 2 ^ (8 * k)) = v / 256 % 2 ^ (8 * k) * 256 + v % 256 :=
        mod_mul_256 v (2 ^ (8 * k))
      rw [pow_succ_256]
      omega
    rw [h1, h2, ih (v / 256)]

theorem beBytes_lt (n : Nat) : ∀ v w,
    (bytesLtB (beBytes n v) (beBytes n w) = true ↔ v % 2 ^ (8 * n) < w % 2 ^ (8 * n)) := by
  induction n with
  | zero => intro v w; simp [beBytes, bytesLtB_nil_right, Nat.mod_one]
  | succ n ih =>
    intro v w
    rw [beBytes, beBytes,
      bytesLtB_append (beBytes n (v / 256)) (beBytes n (w / 256)) [v % 256] [w % 256]
        (by rw [beBytes_length, beBytes_length])]
    have hsplit : ∀ x : Nat, x % 2 ^ (8 * (n + 1)) = x / 256 % 2 ^ (8 * n) * 256 + x % 256 := by
      intro x
      rw [pow_succ_256, mod_mul_256]
    rw [hsplit v, hsplit w, ih (v / 256) (w / 256), bytesLtB_single]
    have hv : v % 256 < 256 := Nat.mod_lt _ (by omega)
    have hw : w % 256 < 256 := Nat.mod_lt _ (by omega)
    constructor
    · rintro (h1 | ⟨h1, h2⟩)
      · omega
      · have h3 : v / 256 % 2 ^ (8 * n) = w / 256 % 2 ^ (8 * n) := by
          have e1 := beVal_beBytes n (v / 256)
          have e2 := beVal_beBytes n (w / 256)
          rw [h1] at e1
          omega
        simp only [decide_eq_true_eq] at h2
        omega
    · intro h1
      by_cases hc : v / 256 % 2 ^ (8 * n) < w / 256 % 2 ^ (8 * n)
      · left; exact hc
      · right
        have heq : v / 256 % 2 ^ (8 * n) = w / 256 % 2 ^ (8 * n) := by omega
        refine ⟨?_, by simp only [decide_eq_true_eq]; omega⟩
        rw [← beBytes_mod n (v / 256), heq, beBytes_mod n (w / 256)]

/-! ### `bisectLeft` -/

theorem sizeLimits_mono {m n : Nat} (h : m ≤ n) : sizeLimits m ≤ sizeLimits n := by
  have h1 : 2 ^ (8 * m) ≤ 2 ^ (8 * n) :=
    Nat.pow_le_pow_right (by omega) (Nat.mul_le_mul_left 8 h)
  simp only [sizeLimits]
  omega

theorem sizeLimits8 : sizeLimits 8 = 2 ^ 64 - 1 := by norm_num [sizeLimits]

theorem bisectLeftAux_spec (u : Nat) :
    ∀ fuel n, u ≤ sizeLimits (n + fuel) →
      (u ≤ sizeLimits (bisectLeftAux u fuel n) ∧
        ∀ m, n ≤ m → m < bisectLeftAux u fuel n → sizeLimits m < u) := by
  intro fuel
  induction fuel with
  | zero =>
    intro n h
    refine ⟨by simpa [bisectLeftAux] using h, ?_⟩
    intro m h1 h2
    simp only [bisectLeftAux] at h2
    omega
  | succ fuel ih =>
    intro n h
    by_cases hc : sizeLimits n < u
    · have h2 : u ≤ sizeLimits (n + 1 + fuel) := by
        have he : n + 1 + fuel = n + (fuel + 1) := by omega
        rw [he]; exact h
      have h3 := ih (n + 1) h2
      refine ⟨by simpa [bisectLeftAux, hc] using h3.1, ?_⟩
      intro m hm1 hm2
      simp only [bisectLeftAux, if_pos hc] at hm2
      by_cases hm : m = n
      · subst hm; exact hc
      · exact h3.2 m (by omega) hm2
    · refine ⟨by simpa [bisectLeftAux, hc] using Nat.le_of_not_lt hc, ?_⟩
      intro m hm1 hm2
      simp only [bisectLeftAux, if_neg hc] at hm2
      omega

theorem bisectLeft_spec (u : Nat) (h : u ≤ sizeLimits 8) :
    u ≤ sizeLimits (bisectLeft u) ∧ ∀ m, m < bisectLeft u → sizeLimits m < u := by
  have h9 : u ≤ sizeLimits (0 + 9) := le_trans h (sizeLimits_mono (by omega))
  have h0 := bisectLeftAux_spec u 9 0 h9
  exact ⟨h0.1, fun m hm => h0.2 m (Nat.zero_le m) hm⟩

theorem bisectLeft_le8 (u : Nat) (h : u ≤ sizeLimits 8) : bisectLeft u ≤ 8 := by
  by_contra hc
  push_neg at hc
  have h1 := (bisectLeft_spec u h).2 8 hc
  omega

theorem bisectLeft_pos (u : Nat) (h1 : 1 ≤ u) (h : u ≤ sizeLimits 8) : 1 ≤ bisectLeft u := by
  by_contra hc
  push_neg at hc
  have h2 := (bisectLeft_spec u h).1
  have h0 : bisectLeft u = 0 := by omega
  rw [h0] at h2
  simp [sizeLimits] at h2
  omega

theorem bisectLeft_mono (u v : Nat) (h : u ≤ v) (hv : v ≤ sizeLimits 8) :
    bisectLeft u ≤ bisectLeft v := by
  by_contra hc
  push_neg at hc
  have hu : u ≤ sizeLimits 8 := le_trans h hv
  have h1 := (bisectLeft_spec u hu).2 (bisectLeft v) hc
  have h2 := (bisectLeft_spec v hv).1
  omega

/-! ### int64 two's-complement arithmetic -/

theorem wrap64_eq_self (x : Int) (h1 : -(2 ^ 63) ≤ x) (h2 : x < 2 ^ 63) : wrap64 x = x := by
  unfold wrap64
  rw [Int.emod_eq_of_lt (by omega) (by omega)]
  omega

theorem wrap64_mem (x : Int) : -(2 ^ 63) ≤ wrap64 x ∧ wrap64 x < 2 ^ 63 := by
  unfold wrap64
  have h1 : 0 ≤ (x + 2 ^ 63) % 2 ^ 64 := Int.emod_nonneg _ (by norm_num)
  have h2 : (x + 2 ^ 63) % 2 ^ 64 < 2 ^ 64 := Int.emod_lt_of_pos _ (by norm_num)
  omega

theorem wrap64_sub_wrap (a b : Int) : wrap64 (wrap64 a - wrap64 b) = wrap64 (a - b) := by
  have ha : wrap64 a = a - 2 ^ 64 * ((a + 2 ^ 63) / 2 ^ 64) := by
    unfold wrap64
    rw [Int.emod_def]
    ring
  have hb : wrap64 b = b - 2 ^ 64 * ((b + 2 ^ 63) / 2 ^ 64) := by
    unfold wrap64
    rw [Int.emod_def]
    ring
  rw [ha, hb]
  have hr : a - 2 ^ 64 * ((a + 2 ^ 63) / 2 ^ 64) - (b - 2 ^ 64 * ((b + 2 ^ 63) / 2 ^ 64))
      = a - b + 2 ^ 64 * ((b + 2 ^ 63) / 2 ^ 64 - (a + 2 ^ 63) / 2 ^ 64) := by ring
  rw [hr]
  unfold wrap64
  rw [show a - b + 2 ^ 64 * ((b + 2 ^ 63) / 2 ^ 64 - (a + 2 ^ 63) / 2 ^ 64) + 2 ^ 63
      = a - b + 2 ^ 63 + 2 ^ 64 * ((b + 2 ^ 63) / 2 ^ 64 - (a + 2 ^ 63) / 2 ^ 64) by ring,
    Int.add_mul_emod_self_left]

theorem toInt64_of_lt (v : Nat) (h : v < 2 ^ 63) : toInt64 v = (v : Nat) := by
  unfold toInt64
  apply wrap64_eq_self
  · exact le_trans (by norm_num) (Int.natCast_nonneg v)
  · exact_mod_cast h

theorem toInt64_large (v : Nat) (h1 : 2 ^ 63 ≤ v) (h2 : v < 2 ^ 64) :
    toInt64 v = (v : Int) - 2 ^ 64 := by
  unfold toInt64 wrap64
  have hv1 : (2 : Int) ^ 63 ≤ (v : Int) := by exact_mod_cast h1
  have hv2 : (v : Int) < 2 ^ 64 := by exact_mod_cast h2
  rw [show (v : Int) + 2 ^ 63 = (v : Int) + 2 ^ 63 - 2 ^ 64 + 2 ^ 64 * 1 by ring,
    Int.add_mul_emod_self_left, Int.emod_eq_of_lt (by omega) (by omega)]
  ring

theorem toInt64_eq_wrap (v : Nat) : toInt64 v = wrap64 (v : Int) := rfl

/-! ### Structure of `encodeInt` -/

def intN (i : Int) : Nat := if 0 < i then bisectLeft i.toNat else bisectLeft (-i).toNat

def intTag (i : Int) : Nat := if 0 < i then 20 + intN i else 20 - intN i

def intVal (i : Int) : Nat :=
  if 0 < i then i.toNat else ((2 : Int) ^ (8 * intN i) - 1 + i).toNat

theorem intN_zero : intN 0 = 0 := by decide

theorem int_toNat_le (i : Int) (h1 : 0 < i) (h2 : i < 2 ^ 63) : i.toNat ≤ sizeLimits 8 := by
  rw [sizeLimits8]
  omega

theorem int_neg_toNat_le (i : Int) (h1 : -(2 ^ 63) ≤ i) (h2 : i < 0) :
    (-i).toNat ≤ sizeLimits 8 := by
  rw [sizeLimits8]
  omega

theorem intN_le8 (i : Int) (h1 : -(2 ^ 63) ≤ i) (h2 : i < 2 ^ 63) : intN i ≤ 8 := by
  unfold intN
  by_cases hp : 0 < i
  · rw [if_pos hp]
    exact bisectLeft_le8 _ (int_toNat_le i hp h2)
  · rw [if_neg hp]
    rcases Nat.eq_zero_or_pos (-i).toNat with h0 | h0
    · rw [h0]
      have : bisectLeft 0 = 0 := by decide
      omega
    · apply bisectLeft_le8
      rw [sizeLimits8]
      omega

theorem intN_pos (i : Int) (h1 : -(2 ^ 63) ≤ i) (h2 : i < 2 ^ 63) (h3 : i ≠ 0) :
    1 ≤ intN i := by
  unfold intN
  by_cases hp : 0 < i
  · rw [if_pos hp]
    exact bisectLeft_pos _ (by omega) (int_toNat_le i hp h2)
  · rw [if_neg hp]
    have hneg : i < 0 := by omega
    exact bisectLeft_pos _ (by omega) (int_neg_toNat_le i h1 hneg)

theorem intVal_lt (i : Int) (h1 : -(2 ^ 63) ≤ i) (h2 : i < 2 ^ 63) :
    intVal i < 2 ^ (8 * intN i) := by
  unfold intVal
  by_cases hp : 0 < i
  · rw [if_pos hp]
    have hN : intN i = bisectLeft i.toNat := by unfold intN; rw [if_pos hp]
    have hb := (bisectLeft_spec i.toNat (int_toNat_le i hp h2)).1
    have hsz : sizeLimits (bisectLeft i.toNat) = 2 ^ (8 * bisectLeft i.toNat) - 1 := rfl
    have hpow : 1 ≤ 2 ^ (8 * bisectLeft i.toNat) := Nat.one_le_pow _ _ (by omega)
    rw [hN]
    omega
  · rw [if_neg hp]
    have hile : i ≤ 0 := by omega
    have hN : intN i = bisectLeft (-i).toNat := by unfold intN; rw [if_neg hp]
    have hb : (-i).toNat ≤ sizeLimits (bisectLeft (-i).toNat) := by
      rcases eq_or_lt_of_le hile with h0 | hneg
      · subst h0; simp
      · exact (bisectLeft_spec (-i).toNat (int_neg_toNat_le i h1 hneg)).1
    have hsz : sizeLimits (bisectLeft (-i).toNat) = 2 ^ (8 * bisectLeft (-i).toNat) - 1 := rfl
    have hpow : 1 ≤ 2 ^ (8 * bisectLeft (-i).toNat) := Nat.one_le_pow _ _ (by omega)
    have hcast : ((2 ^ (8 * bisectLeft (-i).toNat) : Nat) : Int)
        = (2 : Int) ^ (8 * bisectLeft (-i).toNat) := by push_cast; ring
    rw [hN]
    omega

theorem intTag_bounds (i : Int) (h1 : -(2 ^ 63) ≤ i) (h2 : i < 2 ^ 63) :
    12 ≤ intTag i ∧ intTag i ≤ 28 := by
  have hN8 := intN_le8 i h1 h2
  unfold intTag
  by_cases hp : 0 < i
  · rw [if_pos hp]; omega
  · rw [if_neg hp]; omega

theorem intTag_ne20 (i : Int) (h1 : -(2 ^ 63) ≤ i) (h2 : i < 2 ^ 63) (h3 : i ≠ 0) :
    intTag i ≠ 20 := by
  have hN1 := intN_pos i h1 h2 h3
  have hN8 := intN_le8 i h1 h2
  unfold intTag
  by_cases hp : 0 < i
  · rw [if_pos hp]; omega
  · rw [if_neg hp]; omega

theorem neg_payload_nonneg (i : Int) (h1 : -(2 ^ 63) ≤ i) (hneg : i < 0) :
    0 ≤ (2 : Int) ^ (8 * bisectLeft (-i).toNat) - 1 + i ∧
      (2 : Int) ^ (8 * bisectLeft (-i).toNat) - 1 + i < 2 ^ 64 := by
  have hb : (-i).toNat ≤ sizeLimits (bisectLeft (-i).toNat) :=
    (bisectLeft_spec (-i).toNat (int_neg_toNat_le i h1 hneg)).1
  have hle8 : bisectLeft (-i).toNat ≤ 8 := bisectLeft_le8 _ (int_neg_toNat_le i h1 hneg)
  have hsz : sizeLimits (bisectLeft (-i).toNat) = 2 ^ (8 * bisectLeft (-i).toNat) - 1 := rfl
  have hpow : 1 ≤ 2 ^ (8 * bisectLeft (-i).toNat) := Nat.one_le_pow _ _ (by omega)
  have hpowle : (2 : Nat) ^ (8 * bisectLeft (-i).toNat) ≤ 2 ^ 64 :=
    Nat.pow_le_pow_right (by omega) (by omega)
  have hcast : ((2 ^ (8 * bisectLeft (-i).toNat) : Nat) : Int)
      = (2 : Int) ^ (8 * bisectLeft (-i).toNat) := by push_cast; ring
  omega

theorem encodeInt_struct (i : Int) (h1 : -(2 ^ 63) ≤ i) (h2 : i < 2 ^ 63) :
    encodeInt i = intTag i :: beBytes (intN i) (intVal i) := by
  by_cases h0 : i = 0
  · subst h0; decide
  · by_cases hp : 0 < i
    · have hN : intN i = bisectLeft i.toNat := by unfold intN; rw [if_pos hp]
      have hT : intTag i = 20 + intN i := by unfold intTag; rw [if_pos hp]
      have hV : intVal i = i.toNat := by unfold intVal; rw [if_pos hp]
      have hle8 : bisectLeft i.toNat ≤ 8 := bisectLeft_le8 _ (int_toNat_le i hp h2)
      simp only [encodeInt, if_neg h0, if_pos hp]
      rw [hT, hN, hV, beBytes_drop _ _ hle8]
    · have hneg : i < 0 := by omega
      have hmod : (-i) % (2 : Int) ^ 64 = -i := Int.emod_eq_of_lt (by omega) (by omega)
      have hN : intN i = bisectLeft (-i).toNat := by unfold intN; rw [if_neg hp]
      have hT : intTag i = 20 - intN i := by unfold intTag; rw [if_neg hp]
      have hV : intVal i = ((2 : Int) ^ (8 * intN i) - 1 + i).toNat := by
        unfold intVal; rw [if_neg hp]
      have hle8 : bisectLeft (-i).toNat ≤ 8 := bisectLeft_le8 _ (int_neg_toNat_le i h1 hneg)
      have hpn := neg_payload_nonneg i h1 hneg
      have hmodv : ((2 : Int) ^ (8 * bisectLeft (-i).toNat) - 1 + i) % 2 ^ 64
          = (2 : Int) ^ (8 * bisectLeft (-i).toNat) - 1 + i :=
        Int.emod_eq_of_lt hpn.1 hpn.2
      simp only [encodeInt, if_neg h0, if_neg hp]
      rw [hmod, hmodv, hT, hV, hN, beBytes_drop _ _ hle8]

theorem decodeInt_cons_zero (l : List Nat) : decodeInt (20 :: l) = some (0, 1) := by
  simp [decodeInt]

theorem decodeInt_cons_pos (b0 : Nat) (l : List Nat) (h20 : b0 ≠ 20) (hge : ¬ b0 < 20)
    (hlen : ¬ (b0 :: l).length < (b0 - 20) + 1) :
    decodeInt (b0 :: l) =
      some (toInt64 (beVal (List.replicate (8 - (b0 - 20)) 0 ++ l.take (b0 - 20))),
        (b0 - 20) + 1) := by
  simp only [decodeInt, if_neg h20, if_neg hge, if_neg hlen, List.drop_succ_cons,
    List.drop_zero]

theorem decodeInt_cons_neg (b0 : Nat) (l : List Nat) (h20 : b0 ≠ 20) (hlt : b0 < 20)
    (hlen : ¬ (b0 :: l).length < (20 - b0) + 1) :
    decodeInt (b0 :: l) =
      some (wrap64 (toInt64 (beVal (List.replicate (8 - (20 - b0)) 0 ++ l.take (20 - b0)))
          - toInt64 (2 ^ (8 * (20 - b0)) - 1)),
        (20 - b0) + 1) := by
  simp only [decodeInt, if_neg h20, if_pos hlt, List.drop_succ_cons, List.drop_zero]
  split
  · next hc =>
    exact absurd (by simpa using hc) hlen
  · rfl

theorem decodeInt_encodeInt (i : Int) (h1 : -(2 ^ 63) ≤ i) (h2 : i < 2 ^ 63)
    (rest : List Nat) : decodeInt (encodeInt i ++ rest) = some (i, intN i + 1) := by
  rw [encodeInt_struct i h1 h2]
  by_cases h0 : i = 0
  · subst h0
    have ht : intTag 0 = 20 := by decide
    have hn : intN 0 = 0 := by decide
    rw [ht, hn]
    show decodeInt (20 :: (beBytes 0 (intVal 0) ++ rest)) = some (0, 0 + 1)
    rw [decodeInt_cons_zero]
  · have hne20 : intTag i ≠ 20 := intTag_ne20 i h1 h2 h0
    have hN8 : intN i ≤ 8 := intN_le8 i h1 h2
    have hN1 : 1 ≤ intN i := intN_pos i h1 h2 h0
    have hVlt : intVal i < 2 ^ (8 * intN i) := intVal_lt i h1 h2
    have hlenb : (beBytes (intN i) (intVal i)).length = intN i := beBytes_length _ _
    have htake : (beBytes (intN i) (intVal i) ++ rest).take (intN i)
        = beBytes (intN i) (intVal i) := by
      have h := List.take_left (beBytes (intN i) (intVal i)) rest
      rw [hlenb] at h
      exact h
    have hbeval : beVal (List.replicate (8 - intN i) 0 ++ beBytes (intN i) (intVal i))
        = intVal i := by
      rw [beVal_replicate_zero, beVal_beBytes, Nat.mod_eq_of_lt hVlt]
    rw [List.cons_append]
    by_cases hp : 0 < i
    · have hT : intTag i = 20 + intN i := by unfold intTag; rw [if_pos hp]
      have hV : intVal i = i.toNat := by unfold intVal; rw [if_pos hp]
      have hnlt : ¬ intTag i < 20 := by omega
      have hn' : intTag i - 20 = intN i := by omega
      have hlen : ¬ (intTag i :: (beBytes (intN i) (intVal i) ++ rest)).length
          < (intTag i - 20) + 1 := by
        simp only [List.length_cons, List.length_append, hlenb, hn']
        omega
      rw [decodeInt_cons_pos _ _ hne20 hnlt hlen, hn', htake, hbeval]
      have hv64 : intVal i < 2 ^ 63 := by rw [hV]; omega
      rw [toInt64_of_lt _ hv64, hV]
      have hcast : ((i.toNat : Nat) : Int) = i := Int.toNat_of_nonneg (by omega)
      rw [hcast]
    · have hneg : i < 0 := by omega
      have hT : intTag i = 20 - intN i := by unfold intTag; rw [if_neg hp]
      have hV : intVal i = ((2 : Int) ^ (8 * intN i) - 1 + i).toNat := by
        unfold intVal; rw [if_neg hp]
      have hlt20 : intTag i < 20 := by omega
      have hn' : 20 - intTag i = intN i := by omega
      have hlen : ¬ (intTag i :: (beBytes (intN i) (intVal i) ++ rest)).length
          < (20 - intTag i) + 1 := by
        simp only [List.length_cons, List.length_append, hlenb, hn']
        omega
      rw [decodeInt_cons_neg _ _ hne20 hlt20 hlen, hn', htake, hbeval]
      have hN : intN i = bisectLeft (-i).toNat := by unfold intN; rw [if_neg hp]
      have hpn := neg_payload_nonneg i h1 hneg
      rw [← hN] at hpn
      have hcastV : ((intVal i : Nat) : Int) = (2 : Int) ^ (8 * intN i) - 1 + i := by
        rw [hV]
        exact Int.toNat_of_nonneg hpn.1
      have hcastL : ((2 ^ (8 * intN i) - 1 : Nat) : Int) = (2 : Int) ^ (8 * intN i) - 1 := by
        have hpow : 1 ≤ 2 ^ (8 * intN i) := Nat.one_le_pow _ _ (by omega)
        push_cast [hpow]
        ring
      rw [toInt64_eq_wrap, toInt64_eq_wrap, wrap64_sub_wrap, hcastV, hcastL]
      have harg : (2 : Int) ^ (8 * intN i) - 1 + i - ((2 : Int) ^ (8 * intN i) - 1) = i := by
        ring
      rw [harg, wrap64_eq_self i h1 h2]

/-! ### Escaping and the terminator scan -/

theorem escapeBytes_append (a b : List Nat) :
    escapeBytes (a ++ b) = escapeBytes a ++ escapeBytes b := by
  induction a with
  | nil => rfl
  | cons x xs ih =>
    by_cases hx : x = 0 <;> simp [escapeBytes, hx, ih]

theorem escapeBytes_zero_free (w : List Nat) (h : ∀ x ∈ w, x ≠ 0) : escapeBytes w = w := by
  induction w with
  | nil => rfl
  | cons x xs ih =>
    have hx : x ≠ 0 := h x (by simp)
    simp [escapeBytes, hx, ih (fun y hy => h y (by simp [hy]))]

theorem escapeBytes_cons_zero (v : List Nat) :
    escapeBytes (0 :: v) = 0 :: 255 :: escapeBytes v := by
  simp [escapeBytes]

theorem unescape_cons_ne (b : Nat) (l : List Nat) (hb : b ≠ 0) :
    unescape (b :: l) = b :: unescape l := by
  cases l with
  | nil => rfl
  | cons c rest => simp [unescape, hb]

theorem unescape_escape (v : List Nat) : unescape (escapeBytes v) = v := by
  induction v with
  | nil => rfl
  | cons x xs ih =>
    by_cases hx : x = 0
    · subst hx
      rw [escapeBytes_cons_zero]
      show unescape (0 :: 255 :: escapeBytes xs) = 0 :: xs
      simp [unescape, ih]
    · rw [show escapeBytes (x :: xs) = x :: escapeBytes xs by simp [escapeBytes, hx]]
      rw [unescape_cons_ne x _ hx, ih]

theorem indexZero_cons (b : Nat) (l : List Nat) :
    indexZero (b :: l) =
      if b = 0 then 0 else if indexZero l = -1 then -1 else indexZero l + 1 := rfl

theorem indexZero_first (w : List Nat) (hw : ∀ x ∈ w, x ≠ 0) (r : List Nat) :
    indexZero (w ++ 0 :: r) = (w.length : Int) := by
  induction w with
  | nil => simp [indexZero]
  | cons x xs ih =>
    have hx : x ≠ 0 := hw x (by simp)
    have ih2 := ih (fun y hy => hw y (by simp [hy]))
    rw [List.cons_append, indexZero_cons, if_neg hx, ih2]
    rw [if_neg (show ¬ (xs.length : Int) = -1 by omega), List.length_cons]
    push_cast
    omega

theorem exists_zero_split (v : List Nat) (h : ¬ ∀ x ∈ v, x ≠ 0) :
    ∃ w v2, (∀ x ∈ w, x ≠ 0) ∧ v = w ++ 0 :: v2 := by
  induction v with
  | nil => exact absurd (by simp) h
  | cons x xs ih =>
    by_cases hx : x = 0
    · exact ⟨[], xs, by simp, by simp [hx]⟩
    · have h2 : ¬ ∀ y ∈ xs, y ≠ 0 := by
        intro hc
        apply h
        intro y hy
        rcases List.mem_cons.mp hy with h3 | h3
        · subst h3; exact hx
        · exact hc y h3
      obtain ⟨w, v2, hw, hv⟩ := ih h2
      refine ⟨x :: w, v2, ?_, by simp [hv]⟩
      intro y hy
      rcases List.mem_cons.mp hy with h3 | h3
      · subst h3; exact hx
      · exact hw y h3

theorem findTermLoop_spec :
    ∀ fuel (v rest : List Nat) (acc : Int),
      (escapeBytes v ++ 0 :: rest).length < fuel → tagHeadOk rest = true →
      findTermLoop fuel (escapeBytes v ++ 0 :: rest) acc
        = acc + ((escapeBytes v).length : Int) := by
  intro fuel
  induction fuel with
  | zero =>
    intro v rest acc h hr
    simp at h
  | succ fuel ih =>
    intro v rest acc h hr
    by_cases hz : ∀ x ∈ v, x ≠ 0
    · rw [escapeBytes_zero_free v hz]
      have hidx : indexZero (v ++ 0 :: rest) = (v.length : Int) := indexZero_first v hz rest
      have hcond : indexZero (v ++ 0 :: rest) + 1 = ((v ++ 0 :: rest).length : Int) ∨
          ¬ (v ++ 0 :: rest)[(indexZero (v ++ 0 :: rest) + 1).toNat]? = some 255 := by
        cases rest with
        | nil =>
          left
          rw [hidx]
          simp
        | cons h2 r2 =>
          right
          rw [hidx, show ((v.length : Int) + 1).toNat = v.length + 1 by omega]
          have hg : (v ++ 0 :: h2 :: r2)[v.length + 1]? = some h2 := by
            rw [List.getElem?_append_right (by omega),
              show v.length + 1 - v.length = 1 by omega]
            simp
          rw [hg]
          have hlt : h2 < 255 := by simpa [tagHeadOk] using hr
          simp
          omega
      simp only [findTermLoop]
      rw [if_pos hcond, hidx]
    · obtain ⟨w, v2, hw, hv⟩ := exists_zero_split v hz
      have hEv : escapeBytes v = w ++ 0 :: 255 :: escapeBytes v2 := by
        rw [hv, escapeBytes_append, escapeBytes_zero_free w hw, escapeBytes_cons_zero]
      have hbp2 : escapeBytes v ++ 0 :: rest
          = w ++ 0 :: 255 :: (escapeBytes v2 ++ 0 :: rest) := by
        rw [hEv]
        simp
      rw [hbp2]
      have hidx : indexZero (w ++ 0 :: 255 :: (escapeBytes v2 ++ 0 :: rest))
          = (w.length : Int) := indexZero_first w hw _
      have hget : (w ++ 0 :: 255 :: (escapeBytes v2 ++ 0 :: rest))[w.length + 1]?
          = some 255 := by
        rw [List.getElem?_append_right (by omega),
          show w.length + 1 - w.length = 1 by omega]
        simp
      have hcond : ¬ (indexZero (w ++ 0 :: 255 :: (escapeBytes v2 ++ 0 :: rest)) + 1
            = ((w ++ 0 :: 255 :: (escapeBytes v2 ++ 0 :: rest)).length : Int) ∨
          ¬ (w ++ 0 :: 255 :: (escapeBytes v2 ++ 0 :: rest))[(indexZero
              (w ++ 0 :: 255 :: (escapeBytes v2 ++ 0 :: rest)) + 1).toNat]? = some 255) := by
        push_neg
        constructor
        · rw [hidx]
          simp
          omega
        · rw [hidx, show ((w.length : Int) + 1).toNat = w.length + 1 by omega, hget]
      simp only [findTermLoop]
      rw [if_neg hcond, hidx]
      have hdrop : (w ++ 0 :: 255 :: (escapeBytes v2 ++ 0 :: rest)).drop
          (((w.length : Int) + 2).toNat) = escapeBytes v2 ++ 0 :: rest := by
        rw [show ((w.length : Int) + 2).toNat = w.length + 2 by omega,
          show w ++ 0 :: 255 :: (escapeBytes v2 ++ 0 :: rest)
            = (w ++ [0, 255]) ++ (escapeBytes v2 ++ 0 :: rest) by simp]
        simp
      rw [hdrop]
      have hfuel : (escapeBytes v2 ++ 0 :: rest).length < fuel := by
        rw [hEv] at h
        simp at h ⊢
        omega
      rw [ih v2 rest (acc + (w.length : Int) + 2) hfuel hr, hEv]
      simp
      ring

theorem findTerminator_spec (v rest : List Nat) (hr : tagHeadOk rest = true) :
    findTerminator (escapeBytes v ++ 0 :: rest) = ((escapeBytes v).length : Int) := by
  unfold findTerminator
  rw [findTermLoop_spec _ v rest 0 (by omega) hr]
  ring

theorem decodeBytes_encodeBytes (code : Nat) (v rest : List Nat)
    (hr : tagHeadOk rest = true) :
    decodeBytes (encodeBytes code v ++ rest) = some (v, (escapeBytes v).length + 2) := by
  unfold encodeBytes decodeBytes
  rw [show (code :: (escapeBytes v ++ [0])) ++ rest
      = code :: (escapeBytes v ++ 0 :: rest) by simp]
  simp only [List.drop_succ_cons, List.drop_zero]
  rw [findTerminator_spec v rest hr]
  rw [if_neg (by omega)]
  rw [show (((escapeBytes v).length : Int)).toNat = (escapeBytes v).length by omega]
  have ht := List.take_left (escapeBytes v) (0 :: rest)
  rw [ht, unescape_escape]
  rw [show (((escapeBytes v).length : Int) + 2).toNat = (escapeBytes v).length + 2 by omega]

/-! ### The `Unpack` loop -/

theorem unpackLoop_nil (fuel : Nat) (acc : List Element) :
    unpackLoop fuel [] acc = .ok acc := by
  cases fuel <;> rfl

theorem decodeBytes_off_ge2 (b v : List Nat) (off : Nat)
    (h : decodeBytes b = some (v, off)) : 2 ≤ off := by
  unfold decodeBytes at h
  by_cases hc : findTerminator (b.drop 1) + 1 < 1
  · rw [if_pos hc] at h
    exact absurd h (by simp)
  · rw [if_neg hc] at h
    simp only [Option.some.injEq, Prod.mk.injEq] at h
    have ho : off = (findTerminator (b.drop 1) + 2).toNat := h.2.symm
    omega

theorem decodeInt_off_ge1 (b : List Nat) (i : Int) (off : Nat)
    (h : decodeInt b = some (i, off)) : 1 ≤ off := by
  cases b with
  | nil => exact absurd h (by simp [decodeInt])
  | cons b0 l =>
    simp only [decodeInt] at h
    by_cases h20 : b0 = 20
    · rw [if_pos h20] at h
      simp only [Option.some.injEq, Prod.mk.injEq] at h
      omega
    · rw [if_neg h20] at h
      by_cases hlen : (b0 :: l).length < (if b0 < 20 then 20 - b0 else b0 - 20) + 1
      · rw [if_pos hlen] at h
        exact absurd h (by simp)
      · rw [if_neg hlen] at h
        by_cases hs : b0 < 20
        · rw [if_pos hs] at h
          simp only [Option.some.injEq, Prod.mk.injEq] at h
          omega
        · rw [if_neg hs] at h
          simp only [Option.some.injEq, Prod.mk.injEq] at h
          omega

theorem unpackLoop_congr : ∀ f1 f2 (b : List Nat) (acc : List Element),
    b.length < f1 → b.length < f2 → unpackLoop f1 b acc = unpackLoop f2 b acc := by
  intro f1
  induction f1 with
  | zero =>
    intro f2 b acc h1 h2
    omega
  | succ f1 ih =>
    intro f2 b acc h1 h2
    cases b with
    | nil => rw [unpackLoop_nil, unpackLoop_nil]
    | cons b0 brest =>
      cases f2 with
      | zero => omega
      | succ f2 =>
        have hlen : brest.length < f1 := by
          simp only [List.length_cons] at h1
          omega
        have hlen2 : brest.length < f2 := by
          simp only [List.length_cons] at h2
          omega
        simp only [unpackLoop]
        by_cases h0 : b0 = 0
        · simp only [if_pos h0]
          exact ih f2 brest _ hlen hlen2
        · simp only [if_neg h0]
          by_cases h1b : b0 = 1
          · simp only [if_pos h1b]
            cases hdb : decodeBytes (b0 :: brest) with
            | none => rfl
            | some p =>
              obtain ⟨v, off⟩ := p
              have hoff := decodeBytes_off_ge2 _ _ _ hdb
              have hd1 : ((b0 :: brest).drop off).length < f1 := by
                simp only [List.length_drop, List.length_cons]
                omega
              have hd2 : ((b0 :: brest).drop off).length < f2 := by
                simp only [List.length_drop, List.length_cons]
                omega
              exact ih f2 _ _ hd1 hd2
          · simp only [if_neg h1b]
            by_cases h2b : b0 = 2
            · simp only [if_pos h2b]
              cases hdb : decodeBytes (b0 :: brest) with
              | none => rfl
              | some p =>
                obtain ⟨v, off⟩ := p
                have hoff := decodeBytes_off_ge2 _ _ _ hdb
                have hd1 : ((b0 :: brest).drop off).length < f1 := by
                  simp only [List.length_drop, List.length_cons]
                  omega
                have hd2 : ((b0 :: brest).drop off).length < f2 := by
                  simp only [List.length_drop, List.length_cons]
                  omega
                exact ih f2 _ _ hd1 hd2
            · simp only [if_neg h2b]
              by_cases hib : 12 ≤ b0 ∧ b0 ≤ 28
              · simp only [if_pos hib]
                cases hdb : decodeInt (b0 :: brest) with
                | none => rfl
                | some p =>
                  obtain ⟨v, off⟩ := p
                  have hoff := decodeInt_off_ge1 _ _ _ hdb
                  have hd1 : ((b0 :: brest).drop off).length < f1 := by
                    simp only [List.length_drop, List.length_cons]
                    omega
                  have hd2 : ((b0 :: brest).drop off).length < f2 := by
                    simp only [List.length_drop, List.length_cons]
                    omega
                  exact ih f2 _ _ hd1 hd2
              · simp only [if_neg hib]

theorem unpackFrom_int (i : Int) (h1 : -(2 ^ 63) ≤ i) (h2 : i < 2 ^ 63)
    (rest : List Nat) (acc : List Element) :
    UnpackFrom (encodeInt i ++ rest) acc = UnpackFrom rest (acc ++ [.int64 i]) := by
  have hbound := intTag_bounds i h1 h2
  have hdec := decodeInt_encodeInt i h1 h2 rest
  rw [encodeInt_struct i h1 h2] at hdec ⊢
  rw [List.cons_append] at hdec ⊢
  unfold UnpackFrom
  simp only [List.length_cons]
  simp only [unpackLoop]
  rw [if_neg (show ¬ intTag i = 0 by omega), if_neg (show ¬ intTag i = 1 by omega),
    if_neg (show ¬ intTag i = 2 by omega), if_pos (show 12 ≤ intTag i ∧ intTag i ≤ 28 by omega),
    hdec]
  show unpackLoop ((beBytes (intN i) (intVal i) ++ rest).length + 1)
      ((intTag i :: (beBytes (intN i) (intVal i) ++ rest)).drop (intN i + 1))
      (acc ++ [Element.int64 i]) = _
  have hdrop : (intTag i :: (beBytes (intN i) (intVal i) ++ rest)).drop (intN i + 1)
      = rest := by
    rw [List.drop_succ_cons]
    have hd := List.drop_left (beBytes (intN i) (intVal i)) rest
    rw [beBytes_length] at hd
    exact hd
  rw [hdrop]
  apply unpackLoop_congr
  · simp only [List.length_append, beBytes_length]
    omega
  · omega

theorem unpackFrom_bytesTag (c : Nat) (hc : c = 1 ∨ c = 2) (b rest : List Nat)
    (acc : List Element) (hrest : tagHeadOk rest = true) :
    UnpackFrom (encodeBytes c b ++ rest) acc
      = UnpackFrom rest (acc ++ [if c = 1 then .bytes b else .str b]) := by
  have hdec := decodeBytes_encodeBytes c b rest hrest
  have hsh : encodeBytes c b ++ rest = c :: (escapeBytes b ++ 0 :: rest) := by
    unfold encodeBytes
    simp
  rw [hsh] at hdec ⊢
  unfold UnpackFrom
  simp only [List.length_cons]
  simp only [unpackLoop]
  have hdrop : (c :: (escapeBytes b ++ 0 :: rest)).drop ((escapeBytes b).length + 2)
      = rest := by
    rw [show escapeBytes b ++ 0 :: rest = (escapeBytes b ++ [0]) ++ rest by simp]
    rw [show (escapeBytes b).length + 2 = ((escapeBytes b ++ [0]).length) + 1 by simp]
    rw [List.drop_succ_cons, List.drop_left]
  have hfuel1 : rest.length < (escapeBytes b ++ 0 :: rest).length + 1 := by
    simp only [List.length_append, List.length_cons]
    omega
  rcases hc with hc | hc
  · subst hc
    rw [if_neg (by omega), if_pos rfl, hdec, if_pos rfl]
    show unpackLoop ((escapeBytes b ++ 0 :: rest).length + 1)
        ((1 :: (escapeBytes b ++ 0 :: rest)).drop ((escapeBytes b).length + 2))
        (acc ++ [Element.bytes b]) = _
    rw [hdrop]
    exact unpackLoop_congr _ _ _ _ hfuel1 (by omega)
  · subst hc
    rw [if_neg (by omega), if_neg (by omega), if_pos rfl, hdec, if_neg (by omega)]
    show unpackLoop ((escapeBytes b ++ 0 :: rest).length + 1)
        ((2 :: (escapeBytes b ++ 0 :: rest)).drop ((escapeBytes b).length + 2))
        (acc ++ [Element.str b]) = _
    rw [hdrop]
    exact unpackLoop_congr _ _ _ _ hfuel1 (by omega)

theorem unpackFrom_nilElem (rest : List Nat) (acc : List Element) :
    UnpackFrom (0 :: rest) acc = UnpackFrom rest (acc ++ [.nil]) := by
  unfold UnpackFrom
  simp only [List.length_cons]
  simp only [unpackLoop]
  simp

theorem uint32_int64_range (v : Nat) (h : v < 2 ^ 32) :
    -(2 ^ 63) ≤ (v : Int) ∧ (v : Int) < 2 ^ 63 := by
  constructor
  · exact le_trans (by norm_num) (Int.natCast_nonneg v)
  · have hv : (v : Int) < 2 ^ 32 := by exact_mod_cast h
    omega

theorem unpackFrom_elem (e : Element) (le : List Nat)
    (henc : encodeElement e = some le) (hOK : elemOK e = true)
    (rest : List Nat) (hrest : tagHeadOk rest = true) (acc : List Element) :
    UnpackFrom (le ++ rest) acc = UnpackFrom rest (acc ++ [normalize e]) := by
  cases e with
  | nil =>
    simp only [encodeElement, Option.some.injEq] at henc
    subst henc
    exact unpackFrom_nilElem rest acc
  | int64 i =>
    simp only [encodeElement, Option.some.injEq] at henc
    subst henc
    simp only [elemOK, decide_eq_true_eq] at hOK
    exact unpackFrom_int i hOK.1 hOK.2 rest acc
  | uint32 v =>
    simp only [encodeElement, Option.some.injEq] at henc
    subst henc
    simp only [elemOK, decide_eq_true_eq] at hOK
    have hr := uint32_int64_range v hOK
    exact unpackFrom_int _ hr.1 hr.2 rest acc
  | uint64 v =>
    simp only [encodeElement, Option.some.injEq] at henc
    subst henc
    have hr := wrap64_mem (v : Int)
    exact unpackFrom_int _ hr.1 hr.2 rest acc
  | int i =>
    simp only [encodeElement, Option.some.injEq] at henc
    subst henc
    simp only [elemOK, decide_eq_true_eq] at hOK
    exact unpackFrom_int i hOK.1 hOK.2 rest acc
  | byte v =>
    simp only [encodeElement, Option.some.injEq] at henc
    subst henc
    simp only [elemOK, decide_eq_true_eq] at hOK
    have hr := uint32_int64_range v (by omega)
    exact unpackFrom_int _ hr.1 hr.2 rest acc
  | bytes b =>
    simp only [encodeElement, Option.some.injEq] at henc
    subst henc
    have h := unpackFrom_bytesTag 1 (Or.inl rfl) b rest acc hrest
    simpa using h
  | keyConv b =>
    simp only [encodeElement, Option.some.injEq] at henc
    subst henc
    have h := unpackFrom_bytesTag 1 (Or.inl rfl) b rest acc hrest
    simpa [normalize] using h
  | str s =>
    simp only [encodeElement, Option.some.injEq] at henc
    subst henc
    have h := unpackFrom_bytesTag 2 (Or.inr rfl) s rest acc hrest
    simpa [normalize] using h
  | unsupported g => simp [elemOK] at hOK

theorem encodeElement_head (e : Element) (hOK : elemOK e = true) :
    ∃ hd tl, encodeElement e = some (hd :: tl) ∧ hd ≤ 28 := by
  cases e with
  | nil => exact ⟨0, [], rfl, by omega⟩
  | int64 i =>
    simp only [elemOK, decide_eq_true_eq] at hOK
    refine ⟨intTag i, beBytes (intN i) (intVal i), ?_, (intTag_bounds i hOK.1 hOK.2).2⟩
    simp only [encodeElement, Option.some.injEq]
    exact encodeInt_struct i hOK.1 hOK.2
  | uint32 v =>
    simp only [elemOK, decide_eq_true_eq] at hOK
    have hr := uint32_int64_range v hOK
    refine ⟨intTag (v : Int), beBytes (intN (v : Int)) (intVal (v : Int)), ?_,
      (intTag_bounds _ hr.1 hr.2).2⟩
    simp only [encodeElement, Option.some.injEq]
    exact encodeInt_struct _ hr.1 hr.2
  | uint64 v =>
    have hr := wrap64_mem (v : Int)
    refine ⟨intTag (toInt64 v), beBytes (intN (toInt64 v)) (intVal (toInt64 v)), ?_,
      (intTag_bounds _ hr.1 hr.2).2⟩
    simp only [encodeElement, Option.some.injEq]
    exact encodeInt_struct _ hr.1 hr.2
  | int i =>
    simp only [elemOK, decide_eq_true_eq] at hOK
    refine ⟨intTag i, beBytes (intN i) (intVal i), ?_, (intTag_bounds i hOK.1 hOK.2).2⟩
    simp only [encodeElement, Option.some.injEq]
    exact encodeInt_struct i hOK.1 hOK.2
  | byte v =>
    simp only [elemOK, decide_eq_true_eq] at hOK
    have hr := uint32_int64_range v (by omega)
    refine ⟨intTag (v : Int), beBytes (intN (v : Int)) (intVal (v : Int)), ?_,
      (intTag_bounds _ hr.1 hr.2).2⟩
    simp only [encodeElement, Option.some.injEq]
    exact encodeInt_struct _ hr.1 hr.2
  | bytes b => exact ⟨1, _, rfl, by omega⟩
  | keyConv b => exact ⟨1, _, rfl, by omega⟩
  | str s => exact ⟨2, _, rfl, by omega⟩
  | unsupported g => simp [elemOK] at hOK

theorem tagHeadOk_packList_append (t : List Element) (rest : List Nat)
    (h : ∀ e ∈ t, elemOK e = true) (hrest : tagHeadOk rest = true) :
    tagHeadOk (packList t ++ rest) = true := by
  cases t with
  | nil => simpa [packList_nil]
  | cons e t =>
    obtain ⟨hd, tl, henc, hle⟩ := encodeElement_head e (h e (by simp))
    rw [packList_cons, henc]
    simp only [Option.getD_some, List.cons_append]
    simp [tagHeadOk]
    omega

theorem unpackFrom_packList (t : List Element) (h : ∀ e ∈ t, elemOK e = true) :
    ∀ rest acc, tagHeadOk rest = true →
      UnpackFrom (packList t ++ rest) acc = UnpackFrom rest (acc ++ t.map normalize) := by
  induction t with
  | nil =>
    intro rest acc hrest
    simp [packList_nil]
  | cons e t ih =>
    intro rest acc hrest
    have he : elemOK e = true := h e (by simp)
    have ht : ∀ x ∈ t, elemOK x = true := fun x hx => h x (by simp [hx])
    obtain ⟨le, hle⟩ := Option.isSome_iff_exists.mp (elemEncodable_of_OK e he)
    rw [packList_cons, hle]
    simp only [Option.getD_some]
    rw [List.append_assoc]
    rw [unpackFrom_elem e le hle he _ (tagHeadOk_packList_append t rest ht hrest) acc]
    rw [ih ht rest _ hrest]
    simp

theorem Unpack_eq_UnpackFrom (b : List Nat) : Unpack b = UnpackFrom b [] := rfl

theorem Unpack_packList (t : List Element) (h : ∀ e ∈ t, elemOK e = true) :
    Unpack (packList t) = .ok (t.map normalize) := by
  rw [Unpack_eq_UnpackFrom, show packList t = packList t ++ [] by simp,
    unpackFrom_packList t h [] [] rfl]
  unfold UnpackFrom
  simp [unpackLoop_nil]

/-! ### Claim C2: pack/unpack round trip -/

/-- C2: for every Tuple whose elements are supported variants holding
representable values, `Unpack (Pack t)` succeeds and returns `t` with each
element normalized: integer-like elements come back as the canonical
signed int64 (two's complement for uint64), byte-convertible elements as
byte strings, and nil, byte and string contents are preserved exactly. -/
theorem C2_unpack_pack_roundtrip (t : List Element) (h : ∀ e ∈ t, elemOK e = true)
    (bs : List Nat) (hp : Pack t = .ok bs) :
    Unpack bs = .ok (t.map normalize) := by
  have henc : ∀ e ∈ t, elemEncodable e = true := fun e he => elemEncodable_of_OK e (h e he)
  rw [Pack_ok_eq t henc bs hp]
  exact Unpack_packList t h

theorem C2_witness :
    Unpack [2, 117, 0, 1, 0, 255, 0, 21, 42, 22, 255, 255, 0] =
      .ok [.str [117], .bytes [0], .int64 42, .int64 65535, .nil] :=
  C2_unpack_pack_roundtrip
    [.str [117], .keyConv [0], .int 42, .uint64 65535, .nil] (by decide) _ (by decide)

/-! ### Claim C3: self-delimiting concatenation -/

/-- C3: for Tuples `a`, `b` of supported, representable elements,
`Unpack (Pack a ++ Pack b)` yields `a`'s elements followed by `b`'s
(normalized), and `Pack a ++ Pack b = Pack (a ++ b)`. -/
theorem C3_concat_packed (a b : List Element)
    (ha : ∀ e ∈ a, elemOK e = true) (hb : ∀ e ∈ b, elemOK e = true)
    (pa pb : List Nat) (hpa : Pack a = .ok pa) (hpb : Pack b = .ok pb) :
    Unpack (pa ++ pb) = .ok (a.map normalize ++ b.map normalize) ∧
      Pack (a ++ b) = .ok (pa ++ pb) := by
  have hea : ∀ e ∈ a, elemEncodable e = true := fun e he => elemEncodable_of_OK e (ha e he)
  have heb : ∀ e ∈ b, elemEncodable e = true := fun e he => elemEncodable_of_OK e (hb e he)
  rw [Pack_ok_eq a hea pa hpa, Pack_ok_eq b heb pb hpb]
  constructor
  · rw [Unpack_eq_UnpackFrom,
      unpackFrom_packList a ha (packList b) []
        (by simpa using tagHeadOk_packList_append b [] hb rfl),
      show packList b = packList b ++ [] by simp,
      unpackFrom_packList b hb [] ([] ++ List.map normalize a) rfl]
    unfold UnpackFrom
    rw [unpackLoop_nil]
    simp
  · rw [← packList_append]
    apply Pack_ok
    intro e he
    rcases List.mem_append.mp he with h1 | h1
    · exact hea e h1
    · exact heb e h1

theorem C3_witness :
    Unpack ([21, 1] ++ [1, 65, 0]) = .ok ([.int64 1] ++ [.bytes [65]]) ∧
      Pack ([.int64 1] ++ [.bytes [65]]) = .ok ([21, 1] ++ [1, 65, 0]) :=
  C3_concat_packed [.int64 1] [.bytes [65]] (by decide) (by decide) _ _
    (by decide) (by decide)

/-! ### Claim C5: integer boundary values -/

/-- C5: the integers 0, 1, -1, 255, 256, -256, 2^63-1 and -(2^63) round-trip
exactly through the codec; each leading tag byte is `0x14 ± n` with `n` the
minimal byte count for the magnitude, and the payload is the low `n` bytes
of the big-endian value (positives) or of `2^(8n) - 1 + value` (negatives). -/
theorem C5_int_boundaries :
    (encodeInt 0 = [0x14] ∧ Pack [.int64 0] = .ok [0x14] ∧
      Unpack [0x14] = .ok [.int64 0]) ∧
    (encodeInt 1 = [0x15, 0x01] ∧ Pack [.int64 1] = .ok [0x15, 0x01] ∧
      Unpack [0x15, 0x01] = .ok [.int64 1]) ∧
    (encodeInt (-1) = [0x13, 0xFE] ∧ Pack [.int64 (-1)] = .ok [0x13, 0xFE] ∧
      Unpack [0x13, 0xFE] = .ok [.int64 (-1)]) ∧
    (encodeInt 255 = [0x15, 0xFF] ∧ Pack [.int64 255] = .ok [0x15, 0xFF] ∧
      Unpack [0x15, 0xFF] = .ok [.int64 255]) ∧
    (encodeInt 256 = [0x16, 0x01, 0x00] ∧ Pack [.int64 256] = .ok [0x16, 0x01, 0x00] ∧
      Unpack [0x16, 0x01, 0x00] = .ok [.int64 256]) ∧
    (encodeInt (-256) = [0x12, 0xFE, 0xFF] ∧ Pack [.int64 (-256)] = .ok [0x12, 0xFE, 0xFF] ∧
      Unpack [0x12, 0xFE, 0xFF] = .ok [.int64 (-256)]) ∧
    (encodeInt (2 ^ 63 - 1) = [0x1C, 0x7F, 0xFF, 0xFF, 0xFF, 0xFF, 0xFF, 0xFF, 0xFF] ∧
      Pack [.int64 (2 ^ 63 - 1)] = .ok [0x1C, 0x7F, 0xFF, 0xFF, 0xFF, 0xFF, 0xFF, 0xFF, 0xFF] ∧
      Unpack [0x1C, 0x7F, 0xFF, 0xFF, 0xFF, 0xFF, 0xFF, 0xFF, 0xFF] = .ok [.int64 (2 ^ 63 - 1)]) ∧
    (encodeInt (-(2 ^ 63)) = [0x0C, 0x7F, 0xFF, 0xFF, 0xFF, 0xFF, 0xFF, 0xFF, 0xFF] ∧
      Pack [.int64 (-(2 ^ 63))] = .ok [0x0C, 0x7F, 0xFF, 0xFF, 0xFF, 0xFF, 0xFF, 0xFF, 0xFF] ∧
      Unpack [0x0C, 0x7F, 0xFF, 0xFF, 0xFF, 0xFF, 0xFF, 0xFF, 0xFF] = .ok [.int64 (-(2 ^ 63))]) := by
  decide

/-! ### Claim C9: the worked example -/

/-- C9: packing `["user", 42, nil]` yields exactly the bytes
`02 75 73 65 72 00 15 2A 00`, and unpacking those bytes returns
`["user", 42, nil]` with 42 as an int64. -/
theorem C9_user_42_nil :
    Pack [.str [0x75, 0x73, 0x65, 0x72], .int 42, .nil]
      = .ok [0x02, 0x75, 0x73, 0x65, 0x72, 0x00, 0x15, 0x2A, 0x00] ∧
    Unpack [0x02, 0x75, 0x73, 0x65, 0x72, 0x00, 0x15, 0x2A, 0x00]
      = .ok [.str [0x75, 0x73, 0x65, 0x72], .int64 42, .nil] := by
  decide

/-! ### Claim C10: unsigned elements are packed by two's-complement -/

/-- C10: `Pack` encodes a uint64 element exactly as the int64 obtained by
two's-complement reinterpretation (uint32, int and byte likewise, which are
value-preserving); for a uint64 above `2^63 - 1` the packed form is that of
a negative integer, and unpacking returns that negative int64. -/
theorem C10_unsigned_twos_complement (n : Nat) (hn : n < 2 ^ 64) (m : Nat)
    (hm : m < 2 ^ 32) (b : Nat) (hb : b < 256) (i : Int)
    (hi : -(2 ^ 63) ≤ i ∧ i < 2 ^ 63) (bs : List Nat)
    (hbs : Pack [.uint64 n] = .ok bs) :
    Pack [.uint64 n] = Pack [.int64 (toInt64 n)] ∧
    Pack [.uint32 m] = Pack [.int64 (m : Int)] ∧
    Pack [.byte b] = Pack [.int64 (b : Int)] ∧
    Pack [.int i] = Pack [.int64 i] ∧
    Unpack bs = .ok [.int64 (toInt64 n)] ∧
    (2 ^ 63 - 1 < n → toInt64 n < 0 ∧ toInt64 n = (n : Int) - 2 ^ 64) := by
  refine ⟨rfl, rfl, rfl, rfl, ?_, ?_⟩
  · have h := C2_unpack_pack_roundtrip [.uint64 n] (by simp [elemOK]; omega) bs hbs
    simpa [normalize] using h
  · intro hlarge
    have hlg := toInt64_large n (by omega) hn
    refine ⟨?_, hlg⟩
    have hc : ((n : Int)) < 2 ^ 64 := by exact_mod_cast hn
    omega

theorem C10_witness :
    Pack [.uint64 (2 ^ 64 - 1)] = Pack [.int64 (toInt64 (2 ^ 64 - 1))] ∧
    Pack [.uint32 7] = Pack [.int64 ((7 : Nat) : Int)] ∧
    Pack [.byte 9] = Pack [.int64 ((9 : Nat) : Int)] ∧
    Pack [.int 5] = Pack [.int64 5] ∧
    Unpack [0x13, 0xFE] = .ok [.int64 (toInt64 (2 ^ 64 - 1))] ∧
    (2 ^ 63 - 1 < 2 ^ 64 - 1 → toInt64 (2 ^ 64 - 1) < 0 ∧
      toInt64 (2 ^ 64 - 1) = ((2 ^ 64 - 1 : Nat) : Int) - 2 ^ 64) :=
  C10_unsigned_twos_complement (2 ^ 64 - 1) (by norm_num) 7 (by norm_num) 9 (by norm_num)
    5 (by norm_num) [0x13, 0xFE] (by decide)

/-! ### Claim C6 (corrected): decode failure handling -/

theorem indexZero_none (l : List Nat) (h : ∀ x ∈ l, x ≠ 0) : indexZero l = -1 := by
  induction l with
  | nil => rfl
  | cons b r ih =>
    have hb : b ≠ 0 := h b (by simp)
    rw [indexZero_cons, if_neg hb, ih (fun y hy => h y (by simp [hy]))]
    simp

/-- `findTerminator` reports -1 (hence `decodeBytes` panics) exactly when
the first scan step finds no zero and cannot chain over a leading 0xFF. -/
theorem findTerminator_none (l : List Nat) (hz : ∀ x ∈ l, x ≠ 0)
    (hh : l.head? ≠ some 255) : findTerminator l = -1 := by
  unfold findTerminator
  simp only [findTermLoop]
  rw [indexZero_none l hz]
  have hcond : (-1 : Int) + 1 = (l.length : Int) ∨
      ¬ l[((-1 : Int) + 1).toNat]? = some 255 := by
    cases l with
    | nil => left; simp
    | cons a r =>
      right
      have ha : a ≠ 255 := by simpa using hh
      simpa using ha
  rw [if_pos hcond]
  simp

/-- Counterexample to C6 as stated: the truncated byte-string payloads
`[0x01, 0x00, 0xFF]` (ends right after an escape pair, before any
terminator) and `[0x01, 0x41]` (no terminator at all), and the truncated
integer payload `[0x15]`, are all invalid encodings, yet none of them
makes `Unpack` report a decode failure: the first is silently decoded into
a tuple, the other two panic at a slice bound. -/
theorem C6_counterexample :
    Unpack [0x01, 0x00, 0xFF] = .ok [.bytes [0x00]] ∧
    Unpack [0x01, 0x41] = .panic ∧
    Unpack [0x15] = .panic := by
  decide

/-- C6 as amended: at any element boundary (after a prefix of well-formed
elements), a leading byte outside the recognized tag set
{0x00, 0x01, 0x02, 0x0C..0x1C} and below 0xFF makes `Unpack` return the
unknown-typecode error naming that byte (no offset), discarding the
already-decoded elements rather than returning a partial tuple; truncated
payloads are not reported as decode failures: a byte-string payload
containing no 0x00 byte and not beginning with 0xFF, and an integer
payload shorter than its tag announces, cause a runtime panic, while other
truncated payloads — one ending immediately after an escape pair
0x00 0xFF, or a lone 0xFF — are silently decoded as though terminated. -/
theorem C6_amended (t : List Element) (ht : ∀ e ∈ t, elemOK e = true)
    (b0 : Nat) (hb0 : ¬ (b0 = 0 ∨ b0 = 1 ∨ b0 = 2 ∨ (12 ≤ b0 ∧ b0 ≤ 28)))
    (hb255 : b0 < 255) (rest : List Nat)
    (c : Nat) (hc : c = 1 ∨ c = 2)
    (l : List Nat) (hlz : ∀ x ∈ l, x ≠ 0) (hlh : l.head? ≠ some 255)
    (bi : Nat) (hbi : 12 ≤ bi ∧ bi ≤ 28 ∧ bi ≠ 20)
    (li : List Nat) (hli : li.length < if bi < 20 then 20 - bi else bi - 20) :
    Unpack (packList t ++ b0 :: rest) = .err b0 ∧
    Unpack (packList t ++ c :: l) = .panic ∧
    Unpack (packList t ++ bi :: li) = .panic ∧
    Unpack [0x01, 0x00, 0xFF] = .ok [.bytes [0x00]] ∧
    Unpack [0x01, 0xFF] = .ok [.bytes []] := by
  refine ⟨?_, ?_, ?_, by decide, by decide⟩
  · push_neg at hb0
    obtain ⟨h0, h1, h2, h3⟩ := hb0
    rw [Unpack_eq_UnpackFrom,
      unpackFrom_packList t ht (b0 :: rest) [] (by simp [tagHeadOk]; omega)]
    unfold UnpackFrom
    simp only [List.length_cons]
    simp only [unpackLoop]
    rw [if_neg h0, if_neg h1, if_neg h2,
      if_neg (show ¬ (12 ≤ b0 ∧ b0 ≤ 28) from fun hcc => by have := h3 hcc.1; omega)]
  · have hdb : decodeBytes (c :: l) = none := by
      unfold decodeBytes
      rw [show (c :: l).drop 1 = l from rfl, findTerminator_none l hlz hlh]
      simp
    rw [Unpack_eq_UnpackFrom,
      unpackFrom_packList t ht (c :: l) [] (by rcases hc with rfl | rfl <;> simp [tagHeadOk])]
    unfold UnpackFrom
    simp only [List.length_cons]
    simp only [unpackLoop]
    rcases hc with rfl | rfl
    · rw [if_neg (by omega), if_pos rfl, hdb]
    · rw [if_neg (by omega), if_neg (by omega), if_pos rfl, hdb]
  · have hdi : decodeInt (bi :: li) = none := by
      simp only [decodeInt]
      rw [if_neg hbi.2.2]
      have hcond : (bi :: li).length < (if bi < 20 then 20 - bi else bi - 20) + 1 := by
        simp only [List.length_cons]
        by_cases hs : bi < 20
        · rw [if_pos hs] at hli ⊢
          omega
        · rw [if_neg hs] at hli ⊢
          omega
      rw [if_pos hcond]
    rw [Unpack_eq_UnpackFrom,
      unpackFrom_packList t ht (bi :: li) [] (by simp [tagHeadOk]; omega)]
    unfold UnpackFrom
    simp only [List.length_cons]
    simp only [unpackLoop]
    rw [if_neg (by omega), if_neg (by omega), if_neg (by omega),
      if_pos (show 12 ≤ bi ∧ bi ≤ 28 from ⟨hbi.1, hbi.2.1⟩), hdi]

theorem C6_witness :
    Unpack (packList [.bytes [7]] ++ [0x03]) = .err 0x03 ∧
    Unpack (packList [.bytes [7]] ++ [0x01, 0x41]) = .panic ∧
    Unpack (packList [.bytes [7]] ++ [0x15]) = .panic ∧
    Unpack [0x01, 0x00, 0xFF] = .ok [.bytes [0x00]] ∧
    Unpack [0x01, 0xFF] = .ok [.bytes []] :=
  C6_amended [.bytes [7]] (by decide) 3 (by decide) (by decide) []
    1 (Or.inl rfl) [0x41] (by decide) (by decide)
    0x15 (by decide) [] (by decide)

/-! ### Claim C8: pack-time failure on unsupported elements -/

theorem packFrom_error_at (pre : List Element) (e : Element) (rest : List Element)
    (he : encodeElement e = none) :
    (∀ x ∈ pre, elemEncodable x = true) →
    ∀ i, packFrom i (pre ++ e :: rest) = .error ⟨i + pre.length, typeName e⟩ := by
  induction pre with
  | nil =>
    intro _ i
    simp only [List.nil_append, packFrom, he, List.length_nil, Nat.add_zero]
  | cons x p ih =>
    intro hpre i
    have hx := hpre x (by simp)
    obtain ⟨bs, hbs⟩ := Option.isSome_iff_exists.mp hx
    rw [List.cons_append]
    simp only [packFrom, hbs]
    rw [ih (fun y hy => hpre y (by simp [hy])) (i + 1)]
    simp only [List.length_cons]
    rw [show i + 1 + p.length = i + (p.length + 1) by omega]

/-- C8: if a Tuple contains an element of an unsupported dynamic type,
`Pack` fails at the first such element (all elements before it being
encodable), reporting that element's index and observed type, and produces
no output at all. -/
theorem C8_pack_unsupported (pre : List Element) (e : Element) (rest : List Element)
    (hpre : ∀ x ∈ pre, elemEncodable x = true) (he : encodeElement e = none) :
    Pack (pre ++ e :: rest) = .error ⟨pre.length, typeName e⟩ := by
  have h := packFrom_error_at pre e rest he hpre 0
  simpa using h

theorem C8_witness :
    Pack ([.int64 0, .str [97]] ++ .unsupported "float64" :: [.nil])
      = .error ⟨2, "float64"⟩ :=
  C8_pack_unsupported [.int64 0, .str [97]] (.unsupported "float64") [.nil]
    (by decide) (by decide)

/-! ### Claim C7: subspace membership and isolation -/

/-- C7: for every subspace prefix and key, `Contains` is true exactly when
the key starts with the prefix bytes; `Unpack` fails with the "key is not
in subspace" error exactly when it does not, and otherwise runs
`tuple.Unpack` on the remainder after the prefix.  Consequently, for any
second prefix with neither a byte-prefix of the other, a key packed under
the second subspace is never contained in the first, and the first's
`Unpack` rejects it. -/
theorem C7_subspace (pre k : List Nat) :
    (subContains pre k = true ↔ pre <+: k) ∧
    (subUnpack pre k = .notInSubspace ↔ ¬ pre <+: k) ∧
    (pre <+: k → subUnpack pre k = .decoded (Unpack (k.drop pre.length))) ∧
    (∀ pre2 : List Nat, pre.isPrefixOf pre2 = false → pre2.isPrefixOf pre = false →
      ∀ (t : List Element) (bs : List Nat), Pack t = .ok bs →
        subContains pre (pre2 ++ bs) = false ∧
          subUnpack pre (pre2 ++ bs) = .notInSubspace) := by
  have hiff : ∀ x y : List Nat, x.isPrefixOf y = true ↔ x <+: y := by
    intro x y
    exact List.isPrefixOf_iff_prefix
  refine ⟨hiff pre k, ?_, ?_, ?_⟩
  · constructor
    · intro hu hp
      unfold subUnpack at hu
      rw [if_pos ((hiff pre k).mpr hp)] at hu
      exact absurd hu (by simp)
    · intro hp
      unfold subUnpack
      rw [if_neg (fun hc => hp ((hiff pre k).mp hc))]
  · intro hp
    unfold subUnpack
    rw [if_pos ((hiff pre k).mpr hp)]
  · intro pre2 hd1 hd2 t bs _
    have hnp : ¬ pre <+: (pre2 ++ bs) := by
      intro hc
      rcases Nat.le_total pre.length pre2.length with hl | hl
      · have h1 : pre2 <+: (pre2 ++ bs) := List.prefix_append pre2 bs
        have h2 : pre <+: pre2 := List.prefix_of_prefix_length_le hc h1 hl
        rw [← hiff pre pre2] at h2
        rw [h2] at hd1
        exact absurd hd1 (by simp)
      · have h1 : pre2 <+: (pre2 ++ bs) := List.prefix_append pre2 bs
        have h2 : pre2 <+: pre := List.prefix_of_prefix_length_le h1 hc hl
        rw [← hiff pre2 pre] at h2
        rw [h2] at hd2
        exact absurd hd2 (by simp)
    constructor
    · unfold subContains
      rw [← Bool.not_eq_true]
      intro hc
      exact hnp ((hiff _ _).mp hc)
    · unfold subUnpack
      rw [if_neg (fun hc => hnp ((hiff _ _).mp hc))]

/-! ### Order of encoded integers (towards claim C1) -/

theorem bisect_lt_of_lt (u v : Nat) (hu : u ≤ sizeLimits 8) (hv : v ≤ sizeLimits 8)
    (h : bisectLeft u < bisectLeft v) : u < v := by
  have h1 := (bisectLeft_spec v hv).2 (bisectLeft u) h
  have h2 := (bisectLeft_spec u hu).1
  omega

theorem intTag_cases (k : Int) (h1 : -(2 ^ 63) ≤ k) (h2 : k < 2 ^ 63) :
    (0 < k → intTag k = 20 + intN k ∧ 1 ≤ intN k ∧ intN k ≤ 8) ∧
    (k = 0 → intTag k = 20 ∧ intN k = 0) ∧
    (k < 0 → intTag k = 20 - intN k ∧ 1 ≤ intN k ∧ intN k ≤ 8) := by
  refine ⟨?_, ?_, ?_⟩
  · intro hp
    exact ⟨by unfold intTag; rw [if_pos hp], intN_pos k h1 h2 (by omega), intN_le8 k h1 h2⟩
  · intro h0
    subst h0
    exact ⟨by decide, by decide⟩
  · intro hn
    refine ⟨by unfold intTag; rw [if_neg (by omega)], intN_pos k h1 h2 (by omega),
      intN_le8 k h1 h2⟩

theorem intN_pos_eq (k : Int) (hp : 0 < k) : intN k = bisectLeft k.toNat := by
  unfold intN; rw [if_pos hp]

theorem intN_neg_eq (k : Int) (hp : ¬ 0 < k) : intN k = bisectLeft (-k).toNat := by
  unfold intN; rw [if_neg hp]

theorem intVal_pos_eq (k : Int) (hp : 0 < k) : intVal k = k.toNat := by
  unfold intVal; rw [if_pos hp]

theorem intVal_neg_eq (k : Int) (hp : ¬ 0 < k) :
    intVal k = ((2 : Int) ^ (8 * intN k) - 1 + k).toNat := by
  unfold intVal; rw [if_neg hp]

theorem int_key_order (i j : Int) (hi1 : -(2 ^ 63) ≤ i) (hi2 : i < 2 ^ 63)
    (hj1 : -(2 ^ 63) ≤ j) (hj2 : j < 2 ^ 63) :
    i < j ↔ (intTag i < intTag j ∨ (intTag i = intTag j ∧ intVal i < intVal j)) := by
  have hci := intTag_cases i hi1 hi2
  have hcj := intTag_cases j hj1 hj2
  rcases lt_trichotomy i 0 with hni | h0i | hpi
  · rcases lt_trichotomy j 0 with hnj | h0j | hpj
    · -- both negative
      obtain ⟨hTi, hNi1, hNi8⟩ := hci.2.2 hni
      obtain ⟨hTj, hNj1, hNj8⟩ := hcj.2.2 hnj
      have hNi : intN i = bisectLeft (-i).toNat := intN_neg_eq i (by omega)
      have hNj : intN j = bisectLeft (-j).toNat := intN_neg_eq j (by omega)
      have hVi : intVal i = ((2 : Int) ^ (8 * intN i) - 1 + i).toNat :=
        intVal_neg_eq i (by omega)
      have hVj : intVal j = ((2 : Int) ^ (8 * intN j) - 1 + j).toNat :=
        intVal_neg_eq j (by omega)
      have hpni := neg_payload_nonneg i hi1 hni
      have hpnj := neg_payload_nonneg j hj1 hnj
      rw [← hNi] at hpni
      rw [← hNj] at hpnj
      constructor
      · intro hij
        have hmono := bisectLeft_mono (-j).toNat (-i).toNat (by omega)
          (int_neg_toNat_le i hi1 hni)
        rw [← hNi, ← hNj] at hmono
        rcases Nat.lt_or_ge (intN j) (intN i) with hlt | hge
        · left; omega
        · have heqn : intN i = intN j := by omega
          have hpe : (2 : Int) ^ (8 * intN i) = 2 ^ (8 * intN j) := by rw [heqn]
          right
          refine ⟨by omega, ?_⟩
          rw [hVi, hVj, heqn]
          omega
      · rintro (hlt | ⟨heq, hval⟩)
        · have hn : intN j < intN i := by omega
          rw [hNi, hNj] at hn
          have := bisect_lt_of_lt _ _ (int_neg_toNat_le j hj1 hnj)
            (int_neg_toNat_le i hi1 hni) hn
          omega
        · have heqn : intN i = intN j := by omega
          rw [hVi, hVj, heqn] at hval
          omega
    · -- i < 0, j = 0
      obtain ⟨hTi, hNi1, hNi8⟩ := hci.2.2 hni
      obtain ⟨hTj, hNj⟩ := hcj.2.1 h0j
      constructor
      · intro _; left; omega
      · intro _; omega
    · -- i < 0, j > 0
      obtain ⟨hTi, hNi1, hNi8⟩ := hci.2.2 hni
      obtain ⟨hTj, hNj1, hNj8⟩ := hcj.1 hpj
      constructor
      · intro _; left; omega
      · intro _; omega
  · rcases lt_trichotomy j 0 with hnj | h0j | hpj
    · -- i = 0, j < 0
      obtain ⟨hTi, hNi⟩ := hci.2.1 h0i
      obtain ⟨hTj, hNj1, hNj8⟩ := hcj.2.2 hnj
      constructor
      · intro h; omega
      · rintro (h | ⟨h, _⟩) <;> omega
    · -- both zero
      subst h0i; subst h0j
      simp
    · -- i = 0, j > 0
      obtain ⟨hTi, hNi⟩ := hci.2.1 h0i
      obtain ⟨hTj, hNj1, hNj8⟩ := hcj.1 hpj
      constructor
      · intro _; left; omega
      · intro _; omega
  · rcases lt_trichotomy j 0 with hnj | h0j | hpj
    · -- i > 0, j < 0
      obtain ⟨hTi, hNi1, hNi8⟩ := hci.1 hpi
      obtain ⟨hTj, hNj1, hNj8⟩ := hcj.2.2 hnj
      constructor
      · intro h; omega
      · rintro (h | ⟨h, _⟩) <;> omega
    · -- i > 0, j = 0
      obtain ⟨hTi, hNi1, hNi8⟩ := hci.1 hpi
      obtain ⟨hTj, hNj⟩ := hcj.2.1 h0j
      constructor
      · intro h; omega
      · rintro (h | ⟨h, _⟩) <;> omega
    · -- both positive
      obtain ⟨hTi, hNi1, hNi8⟩ := hci.1 hpi
      obtain ⟨hTj, hNj1, hNj8⟩ := hcj.1 hpj
      have hNi : intN i = bisectLeft i.toNat := intN_pos_eq i hpi
      have hNj : intN j = bisectLeft j.toNat := intN_pos_eq j hpj
      have hVi : intVal i = i.toNat := intVal_pos_eq i hpi
      have hVj : intVal j = j.toNat := intVal_pos_eq j hpj
      constructor
      · intro hij
        have hmono := bisectLeft_mono i.toNat j.toNat (by omega) (int_toNat_le j hpj hj2)
        rw [← hNi, ← hNj] at hmono
        rcases Nat.lt_or_ge (intN i) (intN j) with hlt | hge
        · left; omega
        · have heqn : intN i = intN j := by omega
          right
          refine ⟨by omega, ?_⟩
          rw [hVi, hVj]
          omega
      · rintro (hlt | ⟨heq, hval⟩)
        · have hn : intN i < intN j := by omega
          rw [hNi, hNj] at hn
          have := bisect_lt_of_lt _ _ (int_toNat_le i hpi hi2) (int_toNat_le j hpj hj2) hn
          omega
        · rw [hVi, hVj] at hval
          omega

theorem int_key_inj (i j : Int) (hi1 : -(2 ^ 63) ≤ i) (hi2 : i < 2 ^ 63)
    (hj1 : -(2 ^ 63) ≤ j) (hj2 : j < 2 ^ 63)
    (htag : intTag i = intTag j) (hval : intVal i = intVal j) : i = j := by
  have hci := intTag_cases i hi1 hi2
  have hcj := intTag_cases j hj1 hj2
  rcases lt_trichotomy i 0 with hni | h0i | hpi
  · obtain ⟨hTi, hNi1, hNi8⟩ := hci.2.2 hni
    rcases lt_trichotomy j 0 with hnj | h0j | hpj
    · obtain ⟨hTj, hNj1, hNj8⟩ := hcj.2.2 hnj
      have heqn : intN i = intN j := by omega
      have hVi : intVal i = ((2 : Int) ^ (8 * intN i) - 1 + i).toNat :=
        intVal_neg_eq i (by omega)
      have hVj : intVal j = ((2 : Int) ^ (8 * intN j) - 1 + j).toNat :=
        intVal_neg_eq j (by omega)
      have hpni := neg_payload_nonneg i hi1 hni
      have hpnj := neg_payload_nonneg j hj1 hnj
      rw [← intN_neg_eq i (by omega)] at hpni
      rw [← intN_neg_eq j (by omega)] at hpnj
      have hpe : (2 : Int) ^ (8 * intN i) = 2 ^ (8 * intN j) := by rw [heqn]
      rw [hVi, hVj, heqn] at hval
      omega
    · obtain ⟨hTj, hNj⟩ := hcj.2.1 h0j
      omega
    · obtain ⟨hTj, hNj1, hNj8⟩ := hcj.1 hpj
      omega
  · rcases lt_trichotomy j 0 with hnj | h0j | hpj
    · obtain ⟨hTi, hNi⟩ := hci.2.1 h0i
      obtain ⟨hTj, hNj1, hNj8⟩ := hcj.2.2 hnj
      omega
    · omega
    · obtain ⟨hTi, hNi⟩ := hci.2.1 h0i
      obtain ⟨hTj, hNj1, hNj8⟩ := hcj.1 hpj
      omega
  · obtain ⟨hTi, hNi1, hNi8⟩ := hci.1 hpi
    rcases lt_trichotomy j 0 with hnj | h0j | hpj
    · obtain ⟨hTj, hNj1, hNj8⟩ := hcj.2.2 hnj
      omega
    · obtain ⟨hTj, hNj⟩ := hcj.2.1 h0j
      omega
    · obtain ⟨hTj, hNj1, hNj8⟩ := hcj.1 hpj
      have hVi : intVal i = i.toNat := intVal_pos_eq i hpi
      have hVj : intVal j = j.toNat := intVal_pos_eq j hpj
      rw [hVi, hVj] at hval
      omega

theorem intN_eq_of_tag_eq (i j : Int) (hi1 : -(2 ^ 63) ≤ i) (hi2 : i < 2 ^ 63)
    (hj1 : -(2 ^ 63) ≤ j) (hj2 : j < 2 ^ 63) (h : intTag i = intTag j) :
    intN i = intN j := by
  have hci := intTag_cases i hi1 hi2
  have hcj := intTag_cases j hj1 hj2
  rcases lt_trichotomy i 0 with hni | h0i | hpi <;>
    rcases lt_trichotomy j 0 with hnj | h0j | hpj
  · obtain ⟨hTi, hNi1, hNi8⟩ := hci.2.2 hni
    obtain ⟨hTj, hNj1, hNj8⟩ := hcj.2.2 hnj
    omega
  · obtain ⟨hTi, hNi1, hNi8⟩ := hci.2.2 hni
    obtain ⟨hTj, hNj⟩ := hcj.2.1 h0j
    omega
  · obtain ⟨hTi, hNi1, hNi8⟩ := hci.2.2 hni
    obtain ⟨hTj, hNj1, hNj8⟩ := hcj.1 hpj
    omega
  · obtain ⟨hTi, hNi⟩ := hci.2.1 h0i
    obtain ⟨hTj, hNj1, hNj8⟩ := hcj.2.2 hnj
    omega
  · obtain ⟨hTi, hNi⟩ := hci.2.1 h0i
    obtain ⟨hTj, hNj⟩ := hcj.2.1 h0j
    omega
  · obtain ⟨hTi, hNi⟩ := hci.2.1 h0i
    obtain ⟨hTj, hNj1, hNj8⟩ := hcj.1 hpj
    omega
  · obtain ⟨hTi, hNi1, hNi8⟩ := hci.1 hpi
    obtain ⟨hTj, hNj1, hNj8⟩ := hcj.2.2 hnj
    omega
  · obtain ⟨hTi, hNi1, hNi8⟩ := hci.1 hpi
    obtain ⟨hTj, hNj⟩ := hcj.2.1 h0j
    omega
  · obtain ⟨hTi, hNi1, hNi8⟩ := hci.1 hpi
    obtain ⟨hTj, hNj1, hNj8⟩ := hcj.1 hpj
    omega

theorem encInt_lt (i j : Int) (hi1 : -(2 ^ 63) ≤ i) (hi2 : i < 2 ^ 63)
    (hj1 : -(2 ^ 63) ≤ j) (hj2 : j < 2 ^ 63) (s t : List Nat) :
    (bytesLtB (encodeInt i ++ s) (encodeInt j ++ t) = true ↔
      (i < j ∨ (i = j ∧ bytesLtB s t = true))) := by
  rw [encodeInt_struct i hi1 hi2, encodeInt_struct j hj1 hj2,
    List.cons_append, List.cons_append]
  have hko := int_key_order i j hi1 hi2 hj1 hj2
  have hviL := intVal_lt i hi1 hi2
  have hvjL := intVal_lt j hj1 hj2
  by_cases htag : intTag i = intTag j
  · have hn : intN i = intN j := intN_eq_of_tag_eq i j hi1 hi2 hj1 hj2 htag
    rw [htag, bytesLtB_cons_self,
      bytesLtB_append _ _ _ _ (by rw [beBytes_length, beBytes_length, hn]), hn]
    constructor
    · rintro (hPlt | ⟨hPeq, hst⟩)
      · left
        have hv := (beBytes_lt (intN j) (intVal i) (intVal j)).mp hPlt
        rw [Nat.mod_eq_of_lt (hn ▸ hviL), Nat.mod_eq_of_lt hvjL] at hv
        exact hko.mpr (Or.inr ⟨htag, hv⟩)
      · have hval : intVal i = intVal j :=
          beBytes_inj (intN j) _ _ (hn ▸ hviL) hvjL hPeq
        right
        exact ⟨int_key_inj i j hi1 hi2 hj1 hj2 htag hval, hst⟩
    · rintro (hij | ⟨hij, hst⟩)
      · rcases hko.mp hij with h1 | ⟨_, h2⟩
        · omega
        · left
          rw [beBytes_lt (intN j) (intVal i) (intVal j),
            Nat.mod_eq_of_lt (hn ▸ hviL), Nat.mod_eq_of_lt hvjL]
          exact h2
      · subst hij
        right
        exact ⟨rfl, hst⟩
  · rw [bytesLtB_cons_ne _ _ _ _ htag]
    constructor
    · intro hlt
      simp only [decide_eq_true_eq] at hlt
      left
      exact hko.mpr (Or.inl hlt)
    · rintro (hij | ⟨hij, _⟩)
      · rcases hko.mp hij with h1 | ⟨h1, _⟩
        · simp [h1]
        · exact absurd h1 htag
      · exact absurd (by rw [hij]) htag

/-! ### Order of escaped byte-string payloads (towards claim C1) -/

theorem bytesLtB_lt_cons255 (s : List Nat) (hs : tagHeadOk s = true) (r : List Nat) :
    bytesLtB s (255 :: r) = true := by
  cases s with
  | nil => exact bytesLtB_nil_left _ _
  | cons a s2 =>
    have ha : a < 255 := by simpa [tagHeadOk] using hs
    rw [bytesLtB_cons_ne _ _ _ _ (by omega)]
    simpa using ha

theorem bytesLtB_cons255_false (t : List Nat) (ht : tagHeadOk t = true) (r : List Nat) :
    bytesLtB (255 :: r) t = false := by
  cases t with
  | nil => exact bytesLtB_nil_right _
  | cons a t2 =>
    have ha : a < 255 := by simpa [tagHeadOk] using ht
    rw [bytesLtB_cons_ne _ _ _ _ (by omega)]
    simp
    omega

theorem escTerm_lt (u : List Nat) : ∀ (v s t : List Nat),
    tagHeadOk s = true → tagHeadOk t = true →
    (bytesLtB (escapeBytes u ++ 0 :: s) (escapeBytes v ++ 0 :: t) = true ↔
      (bytesLtB u v = true ∨ (u = v ∧ bytesLtB s t = true))) := by
  induction u with
  | nil =>
    intro v s t hs ht
    cases v with
    | nil =>
      show bytesLtB (0 :: s) (0 :: t) = true ↔ _
      rw [bytesLtB_cons_self]
      simp [bytesLtB_nil_right]
    | cons y v2 =>
      by_cases hy : y = 0
      · subst hy
        rw [escapeBytes_cons_zero]
        show bytesLtB (0 :: s) (0 :: (255 :: (escapeBytes v2 ++ 0 :: t))) = true ↔ _
        rw [bytesLtB_cons_self, bytesLtB_lt_cons255 s hs]
        simp [bytesLtB_nil_left]
      · rw [show escapeBytes (y :: v2) = y :: escapeBytes v2 by simp [escapeBytes, hy]]
        show bytesLtB (0 :: s) (y :: (escapeBytes v2 ++ 0 :: t)) = true ↔ _
        rw [bytesLtB_cons_ne _ _ _ _ (fun hc => hy hc.symm)]
        have hylt : 0 < y := by omega
        simp [hylt, bytesLtB_nil_left]
  | cons x u2 ih =>
    intro v s t hs ht
    cases v with
    | nil =>
      by_cases hx : x = 0
      · subst hx
        rw [escapeBytes_cons_zero]
        show bytesLtB (0 :: (255 :: (escapeBytes u2 ++ 0 :: s))) (0 :: t) = true ↔ _
        rw [bytesLtB_cons_self, bytesLtB_cons255_false t ht]
        simp [bytesLtB_nil_right]
      · rw [show escapeBytes (x :: u2) = x :: escapeBytes u2 by simp [escapeBytes, hx]]
        show bytesLtB (x :: (escapeBytes u2 ++ 0 :: s)) (0 :: t) = true ↔ _
        rw [bytesLtB_cons_ne _ _ _ _ hx]
        simp [bytesLtB_nil_right]
    | cons y v2 =>
      by_cases hx : x = 0
      · by_cases hy : y = 0
        · subst hx; subst hy
          rw [escapeBytes_cons_zero, escapeBytes_cons_zero]
          show bytesLtB (0 :: (255 :: (escapeBytes u2 ++ 0 :: s)))
              (0 :: (255 :: (escapeBytes v2 ++ 0 :: t))) = true ↔ _
          rw [bytesLtB_cons_self, bytesLtB_cons_self, ih v2 s t hs ht,
            bytesLtB_cons_self]
          simp [List.cons.injEq]
        · subst hx
          rw [escapeBytes_cons_zero,
            show escapeBytes (y :: v2) = y :: escapeBytes v2 by simp [escapeBytes, hy]]
          show bytesLtB (0 :: (255 :: (escapeBytes u2 ++ 0 :: s)))
              (y :: (escapeBytes v2 ++ 0 :: t)) = true ↔ _
          rw [bytesLtB_cons_ne _ _ _ _ (fun hc => hy hc.symm),
            bytesLtB_cons_ne _ _ _ _ (fun hc => hy hc.symm)]
          have hylt : 0 < y := by omega
          simp [hylt]
      · by_cases hy : y = 0
        · subst hy
          rw [escapeBytes_cons_zero,
            show escapeBytes (x :: u2) = x :: escapeBytes u2 by simp [escapeBytes, hx]]
          show bytesLtB (x :: (escapeBytes u2 ++ 0 :: s))
              (0 :: (255 :: (escapeBytes v2 ++ 0 :: t))) = true ↔ _
          rw [bytesLtB_cons_ne _ _ _ _ hx, bytesLtB_cons_ne _ _ _ _ hx]
          have hxnlt : ¬ x < 0 := by omega
          simp [hxnlt, hx]
        · by_cases hxy : x = y
          · subst hxy
            rw [show escapeBytes (x :: u2) = x :: escapeBytes u2 by simp [escapeBytes, hx],
              show escapeBytes (x :: v2) = x :: escapeBytes v2 by simp [escapeBytes, hx]]
            show bytesLtB (x :: (escapeBytes u2 ++ 0 :: s))
                (x :: (escapeBytes v2 ++ 0 :: t)) = true ↔ _
            rw [bytesLtB_cons_self, ih v2 s t hs ht, bytesLtB_cons_self]
            simp [List.cons.injEq]
          · rw [show escapeBytes (x :: u2) = x :: escapeBytes u2 by simp [escapeBytes, hx],
              show escapeBytes (y :: v2) = y :: escapeBytes v2 by simp [escapeBytes, hy]]
            show bytesLtB (x :: (escapeBytes u2 ++ 0 :: s))
                (y :: (escapeBytes v2 ++ 0 :: t)) = true ↔ _
            rw [bytesLtB_cons_ne _ _ _ _ hxy, bytesLtB_cons_ne _ _ _ _ hxy]
            simp [hxy]

/-! ### Element-wise and tuple-wise order (claim C1) -/

theorem elemCanon_cases (e : Element) (h : elemCanon e = true) :
    e = .nil ∨ (∃ i, e = .int64 i) ∨ (∃ b, e = .bytes b) ∨ (∃ s, e = .str s) := by
  cases e <;> simp_all [elemCanon]

theorem elemCV_canon (e : Element) (h : elemCV e = true) : elemCanon e = true := by
  simp [elemCV] at h
  exact h.1

theorem int64_range_of_CV (i : Int) (h : elemCV (.int64 i) = true) :
    -(2 ^ 63) ≤ i ∧ i < 2 ^ 63 := by
  simp [elemCV, elemCanon, elemOK] at h
  exact h

theorem encElem_order (a b : Element) (ha : elemCV a = true) (hb : elemCV b = true)
    (la lb : List Nat) (hla : encodeElement a = some la) (hlb : encodeElement b = some lb)
    (s t : List Nat) (hs : tagHeadOk s = true) (ht : tagHeadOk t = true) :
    (bytesLtB (la ++ s) (lb ++ t) = true ↔
      (elemLtSpec a b = true ∨ (a = b ∧ bytesLtB s t = true))) := by
  rcases elemCanon_cases a (elemCV_canon a ha) with rfl | ⟨i, rfl⟩ | ⟨ub, rfl⟩ | ⟨us, rfl⟩ <;>
    rcases elemCanon_cases b (elemCV_canon b hb) with rfl | ⟨j, rfl⟩ | ⟨vb, rfl⟩ | ⟨vs, rfl⟩
  · -- nil, nil
    simp only [encodeElement, Option.some.injEq] at hla hlb
    subst hla; subst hlb
    show bytesLtB (0 :: s) (0 :: t) = true ↔ _
    rw [bytesLtB_cons_self]
    simp [elemLtSpec]
  · -- nil, int64
    simp only [encodeElement, Option.some.injEq] at hla hlb
    subst hla; subst hlb
    have hj := int64_range_of_CV j hb
    have hbj := intTag_bounds j hj.1 hj.2
    rw [encodeInt_struct j hj.1 hj.2]
    show bytesLtB (0 :: s)
        (intTag j :: (beBytes (intN j) (intVal j) ++ t)) = true ↔ _
    rw [bytesLtB_cons_ne _ _ _ _ (by omega)]
    have h0 : 0 < intTag j := by omega
    simp [h0, elemLtSpec]
  · -- nil, bytes
    simp only [encodeElement, Option.some.injEq] at hla hlb
    subst hla; subst hlb
    show bytesLtB (0 :: s) (1 :: (escapeBytes vb ++ [0] ++ t)) = true ↔ _
    rw [bytesLtB_cons_ne _ _ _ _ (by omega)]
    simp [elemLtSpec]
  · -- nil, str
    simp only [encodeElement, Option.some.injEq] at hla hlb
    subst hla; subst hlb
    show bytesLtB (0 :: s) (2 :: (escapeBytes vs ++ [0] ++ t)) = true ↔ _
    rw [bytesLtB_cons_ne _ _ _ _ (by omega)]
    simp [elemLtSpec]
  · -- int64, nil
    simp only [encodeElement, Option.some.injEq] at hla hlb
    subst hla; subst hlb
    have hi := int64_range_of_CV i ha
    have hbi := intTag_bounds i hi.1 hi.2
    rw [encodeInt_struct i hi.1 hi.2]
    show bytesLtB (intTag i :: (beBytes (intN i) (intVal i) ++ s)) (0 :: t) = true ↔ _
    rw [bytesLtB_cons_ne _ _ _ _ (by omega)]
    have h0 : ¬ intTag i < 0 := by omega
    simp [h0, elemLtSpec]
  · -- int64, int64
    simp only [encodeElement, Option.some.injEq] at hla hlb
    subst hla; subst hlb
    have hi := int64_range_of_CV i ha
    have hj := int64_range_of_CV j hb
    rw [encInt_lt i j hi.1 hi.2 hj.1 hj.2 s t]
    simp [elemLtSpec, Element.int64.injEq]
  · -- int64, bytes
    simp only [encodeElement, Option.some.injEq] at hla hlb
    subst hla; subst hlb
    have hi := int64_range_of_CV i ha
    have hbi := intTag_bounds i hi.1 hi.2
    rw [encodeInt_struct i hi.1 hi.2]
    show bytesLtB (intTag i :: (beBytes (intN i) (intVal i) ++ s))
        (1 :: (escapeBytes vb ++ [0] ++ t)) = true ↔ _
    rw [bytesLtB_cons_ne _ _ _ _ (by omega)]
    have h0 : ¬ intTag i < 1 := by omega
    simp [h0, elemLtSpec]
  · -- int64, str
    simp only [encodeElement, Option.some.injEq] at hla hlb
    subst hla; subst hlb
    have hi := int64_range_of_CV i ha
    have hbi := intTag_bounds i hi.1 hi.2
    rw [encodeInt_struct i hi.1 hi.2]
    show bytesLtB (intTag i :: (beBytes (intN i) (intVal i) ++ s))
        (2 :: (escapeBytes vs ++ [0] ++ t)) = true ↔ _
    rw [bytesLtB_cons_ne _ _ _ _ (by omega)]
    have h0 : ¬ intTag i < 2 := by omega
    simp [h0, elemLtSpec]
  · -- bytes, nil
    simp only [encodeElement, Option.some.injEq] at hla hlb
    subst hla; subst hlb
    show bytesLtB (1 :: (escapeBytes ub ++ [0] ++ s)) (0 :: t) = true ↔ _
    rw [bytesLtB_cons_ne _ _ _ _ (by omega)]
    simp [elemLtSpec]
  · -- bytes, int64
    simp only [encodeElement, Option.some.injEq] at hla hlb
    subst hla; subst hlb
    have hj := int64_range_of_CV j hb
    have hbj := intTag_bounds j hj.1 hj.2
    rw [encodeInt_struct j hj.1 hj.2]
    show bytesLtB (1 :: (escapeBytes ub ++ [0] ++ s))
        (intTag j :: (beBytes (intN j) (intVal j) ++ t)) = true ↔ _
    rw [bytesLtB_cons_ne _ _ _ _ (by omega)]
    have h0 : 1 < intTag j := by omega
    simp [h0, elemLtSpec]
  · -- bytes, bytes
    simp only [encodeElement, Option.some.injEq] at hla hlb
    subst hla; subst hlb
    rw [show encodeBytes 1 ub ++ s = 1 :: (escapeBytes ub ++ 0 :: s) by
        unfold encodeBytes; simp,
      show encodeBytes 1 vb ++ t = 1 :: (escapeBytes vb ++ 0 :: t) by
        unfold encodeBytes; simp]
    rw [bytesLtB_cons_self, escTerm_lt ub vb s t hs ht]
    simp [elemLtSpec, Element.bytes.injEq]
  · -- bytes, str
    simp only [encodeElement, Option.some.injEq] at hla hlb
    subst hla; subst hlb
    show bytesLtB (1 :: (escapeBytes ub ++ [0] ++ s)) (2 :: (escapeBytes vs ++ [0] ++ t))
        = true ↔ _
    rw [bytesLtB_cons_ne _ _ _ _ (by omega)]
    simp [elemLtSpec]
  · -- str, nil
    simp only [encodeElement, Option.some.injEq] at hla hlb
    subst hla; subst hlb
    show bytesLtB (2 :: (escapeBytes us ++ [0] ++ s)) (0 :: t) = true ↔ _
    rw [bytesLtB_cons_ne _ _ _ _ (by omega)]
    simp [elemLtSpec]
  · -- str, int64
    simp only [encodeElement, Option.some.injEq] at hla hlb
    subst hla; subst hlb
    have hj := int64_range_of_CV j hb
    have hbj := intTag_bounds j hj.1 hj.2
    rw [encodeInt_struct j hj.1 hj.2]
    show bytesLtB (2 :: (escapeBytes us ++ [0] ++ s))
        (intTag j :: (beBytes (intN j) (intVal j) ++ t)) = true ↔ _
    rw [bytesLtB_cons_ne _ _ _ _ (by omega)]
    have h0 : 2 < intTag j := by omega
    simp [h0, elemLtSpec]
  · -- str, bytes
    simp only [encodeElement, Option.some.injEq] at hla hlb
    subst hla; subst hlb
    show bytesLtB (2 :: (escapeBytes us ++ [0] ++ s)) (1 :: (escapeBytes vb ++ [0] ++ t))
        = true ↔ _
    rw [bytesLtB_cons_ne _ _ _ _ (by omega)]
    simp [elemLtSpec]
  · -- str, str
    simp only [encodeElement, Option.some.injEq] at hla hlb
    subst hla; subst hlb
    rw [show encodeBytes 2 us ++ s = 2 :: (escapeBytes us ++ 0 :: s) by
        unfold encodeBytes; simp,
      show encodeBytes 2 vs ++ t = 2 :: (escapeBytes vs ++ 0 :: t) by
        unfold encodeBytes; simp]
    rw [bytesLtB_cons_self, escTerm_lt us vs s t hs ht]
    simp [elemLtSpec, Element.str.injEq]

theorem tagHeadOk_packList (t : List Element) (h : ∀ e ∈ t, elemCV e = true) :
    tagHeadOk (packList t) = true := by
  have h2 := tagHeadOk_packList_append t [] (fun e he => elemOK_of_CV e (h e he)) rfl
  simpa using h2

theorem packList_lt (A : List Element) : ∀ B : List Element,
    (∀ e ∈ A, elemCV e = true) → (∀ e ∈ B, elemCV e = true) →
    (bytesLtB (packList A) (packList B) = true ↔ tupleLtSpec A B = true) := by
  induction A with
  | nil =>
    intro B hA hB
    cases B with
    | nil => simp [packList_nil, bytesLtB_nil_right, tupleLtSpec]
    | cons b B2 =>
      obtain ⟨hd, tl, henc, _⟩ := encodeElement_head b (elemOK_of_CV b (hB b (by simp)))
      rw [packList_nil, packList_cons, henc]
      simp only [Option.getD_some, List.cons_append]
      simp [bytesLtB_nil_left, tupleLtSpec]
  | cons a A2 ih =>
    intro B hA hB
    cases B with
    | nil =>
      obtain ⟨hd, tl, henc, _⟩ := encodeElement_head a (elemOK_of_CV a (hA a (by simp)))
      rw [packList_cons, henc, packList_nil]
      simp only [Option.getD_some, List.cons_append]
      simp [bytesLtB_nil_right, tupleLtSpec]
    | cons b B2 =>
      have hae : elemCV a = true := hA a (by simp)
      have hbe : elemCV b = true := hB b (by simp)
      have hA2 : ∀ e ∈ A2, elemCV e = true := fun e he => hA e (by simp [he])
      have hB2 : ∀ e ∈ B2, elemCV e = true := fun e he => hB e (by simp [he])
      obtain ⟨la, hla⟩ :=
        Option.isSome_iff_exists.mp (elemEncodable_of_OK a (elemOK_of_CV a hae))
      obtain ⟨lb, hlb⟩ :=
        Option.isSome_iff_exists.mp (elemEncodable_of_OK b (elemOK_of_CV b hbe))
      rw [packList_cons, packList_cons, hla, hlb]
      simp only [Option.getD_some]
      rw [encElem_order a b hae hbe la lb hla hlb (packList A2) (packList B2)
        (tagHeadOk_packList A2 hA2) (tagHeadOk_packList B2 hB2)]
      rw [ih B2 hA2 hB2]
      by_cases helt : elemLtSpec a b = true
      · simp [tupleLtSpec, helt]
      · by_cases heq : a = b
        · subst heq
          simp [tupleLtSpec, helt]
        · simp [tupleLtSpec, helt, heq]

/-! ### Claim C1: order preservation -/

/-- C1: for Tuples A and B built from the canonical variants (nil, byte
string, unicode string, int64 in range), A sorts before B under tuple
order (tag order Null < ByteString < UnicodeString < Integer, then
byte-lexicographic / numeric within a variant, strict prefixes first)
exactly when the packed form of A sorts before the packed form of B in
byte-lexicographic order. -/
theorem C1_order_preservation (A B : List Element)
    (hA : ∀ e ∈ A, elemCV e = true) (hB : ∀ e ∈ B, elemCV e = true)
    (pa pb : List Nat) (hpa : Pack A = .ok pa) (hpb : Pack B = .ok pb) :
    tupleLtSpec A B = true ↔ bytesLtB pa pb = true := by
  have hea : ∀ e ∈ A, elemEncodable e = true :=
    fun e he => elemEncodable_of_OK e (elemOK_of_CV e (hA e he))
  have heb : ∀ e ∈ B, elemEncodable e = true :=
    fun e he => elemEncodable_of_OK e (elemOK_of_CV e (hB e he))
  rw [Pack_ok_eq A hea pa hpa, Pack_ok_eq B heb pb hpb]
  exact (packList_lt A B hA hB).symm

theorem C1_witness :
    (tupleLtSpec [.bytes [0]] [.bytes [], .int64 (-300)] = true ↔
      bytesLtB [1, 0, 255, 0] [1, 0, 18, 254, 211] = true) ∧
    (tupleLtSpec [.str [97], .int64 5] [.str [97], .int64 6] = true ↔
      bytesLtB [2, 97, 0, 21, 5] [2, 97, 0, 21, 6] = true) :=
  ⟨C1_order_preservation [.bytes [0]] [.bytes [], .int64 (-300)]
      (by decide) (by decide) _ _ (by decide) (by decide),
    C1_order_preservation [.str [97], .int64 5] [.str [97], .int64 6]
      (by decide) (by decide) _ _ (by decide) (by decide)⟩

/-! ### Prefix structure of packed tuples (towards claim C4) -/

theorem elemLtSpec_total (a b : Element) (ha : elemCV a = true) (hb : elemCV b = true)
    (hne : a ≠ b) : elemLtSpec a b = true ∨ elemLtSpec b a = true := by
  rcases elemCanon_cases a (elemCV_canon a ha) with rfl | ⟨i, rfl⟩ | ⟨ub, rfl⟩ | ⟨us, rfl⟩ <;>
    rcases elemCanon_cases b (elemCV_canon b hb) with rfl | ⟨j, rfl⟩ | ⟨vb, rfl⟩ | ⟨vs, rfl⟩
  · exact absurd rfl hne
  · left; rfl
  · left; rfl
  · left; rfl
  · right; rfl
  · have hij : i ≠ j := by simpa using hne
    simp only [elemLtSpec, decide_eq_true_eq]
    omega
  · right; rfl
  · right; rfl
  · right; rfl
  · left; rfl
  · have huv : ub ≠ vb := by simpa using hne
    simpa only [elemLtSpec] using bytesLtB_total ub vb huv
  · left; rfl
  · right; rfl
  · left; rfl
  · right; rfl
  · have huv : us ≠ vs := by simpa using hne
    simpa only [elemLtSpec] using bytesLtB_total us vs huv

theorem encElem_inj (a b : Element) (ha : elemCV a = true) (hb : elemCV b = true)
    (la lb : List Nat) (hla : encodeElement a = some la) (hlb : encodeElement b = some lb)
    (s t : List Nat) (hs : tagHeadOk s = true) (ht : tagHeadOk t = true)
    (heq : la ++ s = lb ++ t) : a = b ∧ s = t := by
  have hord1 := encElem_order a b ha hb la lb hla hlb s t hs ht
  have hord2 := encElem_order b a hb ha lb la hlb hla t s ht hs
  rw [heq] at hord1
  rw [← heq] at hord2
  have h1 : ¬ (elemLtSpec a b = true ∨ (a = b ∧ bytesLtB s t = true)) := by
    rw [← hord1, bytesLtB_irrefl]
    simp
  have h2 : ¬ (elemLtSpec b a = true ∨ (b = a ∧ bytesLtB t s = true)) := by
    rw [← hord2, bytesLtB_irrefl]
    simp
  push_neg at h1 h2
  by_cases hab : a = b
  · subst hab
    have hll : la = lb := by
      rw [hla] at hlb
      simpa using hlb
    subst hll
    exact ⟨rfl, List.append_cancel_left heq⟩
  · rcases elemLtSpec_total a b ha hb hab with h | h
    · exact absurd h h1.1
    · exact absurd h h2.1

theorem pack_prefix_tuple (p : List Element) : ∀ (q : List Element) (rest : List Nat),
    (∀ e ∈ p, elemCV e = true) → (∀ e ∈ q, elemCV e = true) →
    tagHeadOk rest = true → rest ≠ [] →
    packList q = packList p ++ rest → ∃ r, r ≠ [] ∧ q = p ++ r := by
  induction p with
  | nil =>
    intro q rest _ _ _ hne heq
    refine ⟨q, ?_, by simp⟩
    intro hc
    subst hc
    rw [packList_nil] at heq
    simp at heq
    exact hne heq
  | cons a p2 ih =>
    intro q rest hp hq hth hne heq
    cases q with
    | nil =>
      exfalso
      obtain ⟨hd, tl, henc, _⟩ := encodeElement_head a (elemOK_of_CV a (hp a (by simp)))
      rw [packList_nil, packList_cons, henc] at heq
      simp at heq
    | cons b q2 =>
      have hae : elemCV a = true := hp a (by simp)
      have hbe : elemCV b = true := hq b (by simp)
      have hp2 : ∀ e ∈ p2, elemCV e = true := fun e he => hp e (by simp [he])
      have hq2 : ∀ e ∈ q2, elemCV e = true := fun e he => hq e (by simp [he])
      obtain ⟨la, hla⟩ :=
        Option.isSome_iff_exists.mp (elemEncodable_of_OK a (elemOK_of_CV a hae))
      obtain ⟨lb, hlb⟩ :=
        Option.isSome_iff_exists.mp (elemEncodable_of_OK b (elemOK_of_CV b hbe))
      rw [packList_cons, packList_cons, hla, hlb] at heq
      simp only [Option.getD_some] at heq
      rw [List.append_assoc] at heq
      have hthp : tagHeadOk (packList p2 ++ rest) = true :=
        tagHeadOk_packList_append p2 rest (fun e he => elemOK_of_CV e (hp2 e he)) hth
      obtain ⟨hba, hq2eq⟩ := encElem_inj b a hbe hae lb la hlb hla
        (packList q2) (packList p2 ++ rest) (tagHeadOk_packList q2 hq2) hthp heq
      subst hba
      obtain ⟨r, hr, hqr⟩ := ih q2 rest hp2 hq2 hth hne hq2eq
      exact ⟨r, hr, by rw [hqr]; simp⟩

/-! ### Membership in the derived byte range (claim C4) -/

theorem rangeMem_prefix (P : List Nat) : ∀ K, rangeMemB P K = true →
    ∃ h r, K = P ++ h :: r ∧ h < 255 := by
  induction P with
  | nil =>
    intro K hK
    unfold rangeMemB at hK
    rw [Bool.and_eq_true] at hK
    obtain ⟨h1, h2⟩ := hK
    cases K with
    | nil =>
      exact absurd h1 (by decide)
    | cons k K2 =>
      refine ⟨k, K2, by simp, ?_⟩
      simp only [List.nil_append] at h2
      by_contra hk
      push_neg at hk
      rcases Nat.eq_or_lt_of_le hk with he | hl
      · rw [← he] at h2
        simp [bytesLtB_cons, bytesLtB_nil_right] at h2
      · rw [bytesLtB_cons_ne _ _ _ _ (by omega)] at h2
        simp at h2
        omega
  | cons c P2 ih =>
    intro K hK
    unfold rangeMemB at hK
    rw [Bool.and_eq_true] at hK
    obtain ⟨h1, h2⟩ := hK
    cases K with
    | nil =>
      unfold bytesLeB at h1
      rw [Bool.or_eq_true] at h1
      rcases h1 with he | hl
      · rw [beq_iff_eq] at he
        simp at he
      · rw [bytesLtB_nil_right] at hl
        exact absurd hl (by simp)
    | cons k K2 =>
      by_cases hck : c = k
      · subst hck
        have h1' : bytesLeB (P2 ++ [0]) K2 = true := by
          unfold bytesLeB at h1 ⊢
          rw [Bool.or_eq_true] at h1 ⊢
          rcases h1 with he | hl
          · left
            rw [beq_iff_eq] at he ⊢
            rw [List.cons_append] at he
            simpa using he
          · right
            rw [List.cons_append, bytesLtB_cons_self] at hl
            exact hl
        have h2' : bytesLtB K2 (P2 ++ [255]) = true := by
          rw [List.cons_append, bytesLtB_cons_self] at h2
          exact h2
        obtain ⟨h, r, hKe, hh⟩ := ih K2 (by
          unfold rangeMemB
          rw [Bool.and_eq_true]
          exact ⟨h1', h2'⟩)
        exact ⟨h, r, by rw [hKe]; simp, hh⟩
      · exfalso
        have hck2 : c < k := by
          unfold bytesLeB at h1
          rw [Bool.or_eq_true] at h1
          rcases h1 with he | hl
          · rw [beq_iff_eq, List.cons_append] at he
            exact absurd ((List.cons.injEq _ _ _ _).mp he).1 hck
          · rw [List.cons_append, bytesLtB_cons_ne _ _ _ _ hck] at hl
            simpa using hl
        rw [List.cons_append, bytesLtB_cons_ne _ _ _ _ (by omega : k ≠ c)] at h2
        simp at h2
        omega

theorem rangeMem_of_ext (P : List Nat) (h : Nat) (r : List Nat) (hh : h < 255) :
    rangeMemB P (P ++ h :: r) = true := by
  unfold rangeMemB
  rw [Bool.and_eq_true]
  constructor
  · unfold bytesLeB
    rw [Bool.or_eq_true]
    by_cases h0 : h = 0 ∧ r = []
    · left
      rw [beq_iff_eq, h0.1, h0.2]
    · right
      rw [bytesLtB_append P P [0] (h :: r) rfl]
      right
      refine ⟨rfl, ?_⟩
      by_cases hz : h = 0
      · subst hz
        have hr : r ≠ [] := fun hc => h0 ⟨rfl, hc⟩
        show bytesLtB (0 :: []) (0 :: r) = true
        rw [bytesLtB_cons_self]
        cases r with
        | nil => exact absurd rfl hr
        | cons a r2 => exact bytesLtB_nil_left _ _
      · rw [bytesLtB_cons_ne _ _ _ _ (fun hc => hz hc.symm)]
        simp
        omega
  · rw [bytesLtB_append P P (h :: r) [255] rfl]
    right
    refine ⟨rfl, ?_⟩
    rw [bytesLtB_cons_ne _ _ _ _ (by omega)]
    simpa using hh

theorem rangeMem_self_false (P : List Nat) : rangeMemB P P = false := by
  cases hR : rangeMemB P P with
  | false => rfl
  | true =>
    obtain ⟨h, r, he, _⟩ := rangeMem_prefix P P hR
    have hlen := congrArg List.length he
    simp at hlen

/-- C4: `LexRangeKeys p` is exactly `(Pack p ++ 0x00, Pack p ++ 0xFF)`;
for any two distinct canonical element values x ≠ y the packed forms of
`p ++ [x]` and `p ++ [y]` lie inside the half-open byte range
`[Pack p ++ 0x00, Pack p ++ 0xFF)`, while `Pack p` itself and the packed
form of any canonical Tuple that does not strictly extend `p` lie outside
it. -/
theorem C4_lex_range (p : List Element) (hp : ∀ e ∈ p, elemCV e = true)
    (pp : List Nat) (hpp : Pack p = .ok pp) :
    LexRangeKeys p = .ok (pp ++ [0], pp ++ [255]) ∧
    (∀ x y : Element, x ≠ y → elemCV x = true → elemCV y = true →
      ∀ kx ky : List Nat, Pack (p ++ [x]) = .ok kx → Pack (p ++ [y]) = .ok ky →
        rangeMemB pp kx = true ∧ rangeMemB pp ky = true) ∧
    rangeMemB pp pp = false ∧
    (∀ (q : List Element) (kq : List Nat), (∀ e ∈ q, elemCV e = true) →
      Pack q = .ok kq → ¬ (∃ r, r ≠ [] ∧ q = p ++ r) → rangeMemB pp kq = false) := by
  have hpe : ∀ e ∈ p, elemEncodable e = true :=
    fun e he => elemEncodable_of_OK e (elemOK_of_CV e (hp e he))
  have hppv : pp = packList p := Pack_ok_eq p hpe pp hpp
  refine ⟨?_, ?_, rangeMem_self_false pp, ?_⟩
  · unfold LexRangeKeys
    rw [hpp]
    rfl
  · intro x y _ hx hy kx ky hkx hky
    have hmem : ∀ z : Element, elemCV z = true → ∀ kz : List Nat,
        Pack (p ++ [z]) = .ok kz → rangeMemB pp kz = true := by
      intro z hz kz hkz
      have hze : ∀ e ∈ p ++ [z], elemEncodable e = true := by
        intro e he
        rcases List.mem_append.mp he with h1 | h1
        · exact hpe e h1
        · simp at h1
          subst h1
          exact elemEncodable_of_OK e (elemOK_of_CV e hz)
      have hkzv := Pack_ok_eq (p ++ [z]) hze kz hkz
      obtain ⟨hd, tl, henc, hle⟩ := encodeElement_head z (elemOK_of_CV z hz)
      have hkz2 : kz = pp ++ hd :: tl := by
        rw [hkzv, packList_append, hppv, packList_cons, packList_nil, henc]
        simp
      rw [hkz2]
      exact rangeMem_of_ext pp hd tl (by omega)
    exact ⟨hmem x hx kx hkx, hmem y hy ky hky⟩
  · intro q kq hq hkq hnotext
    cases hR : rangeMemB pp kq with
    | false => rfl
    | true =>
      exfalso
      obtain ⟨h, r, hke, hh⟩ := rangeMem_prefix pp kq hR
      have hqe : ∀ e ∈ q, elemEncodable e = true :=
        fun e he => elemEncodable_of_OK e (elemOK_of_CV e (hq e he))
      have hkqv := Pack_ok_eq q hqe kq hkq
      have heq : packList q = packList p ++ (h :: r) := by
        rw [← hkqv, ← hppv]
        exact hke
      obtain ⟨r2, hr2, hqr⟩ := pack_prefix_tuple p q (h :: r) hp hq
        (by simp [tagHeadOk]; omega) (by simp) heq
      exact hnotext ⟨r2, hr2, hqr⟩

theorem C4_witness :
    LexRangeKeys [.int64 1] = .ok ([21, 1] ++ [0], [21, 1] ++ [255]) ∧
    (∀ x y : Element, x ≠ y → elemCV x = true → elemCV y = true →
      ∀ kx ky : List Nat, Pack ([.int64 1] ++ [x]) = .ok kx →
        Pack ([.int64 1] ++ [y]) = .ok ky →
        rangeMemB [21, 1] kx = true ∧ rangeMemB [21, 1] ky = true) ∧
    rangeMemB [21, 1] [21, 1] = false ∧
    (∀ (q : List Element) (kq : List Nat), (∀ e ∈ q, elemCV e = true) →
      Pack q = .ok kq → ¬ (∃ r, r ≠ [] ∧ q = [.int64 1] ++ r) →
      rangeMemB [21, 1] kq = false) :=
  C4_lex_range [.int64 1] (by decide) [21, 1] (by decide)

theorem C7_witness :
    (subContains [21, 7] [21, 7, 0] = true ↔ [21, 7] <+: [21, 7, 0]) ∧
    (subUnpack [21, 7] [21, 7, 0] = .notInSubspace ↔ ¬ [21, 7] <+: [21, 7, 0]) ∧
    ([21, 7] <+: [21, 7, 0] →
      subUnpack [21, 7] [21, 7, 0] = .decoded (Unpack ([21, 7, 0].drop 2))) ∧
    (∀ pre2 : List Nat, [21, 7].isPrefixOf pre2 = false →
      pre2.isPrefixOf [21, 7] = false →
      ∀ (t : List Element) (bs : List Nat), Pack t = .ok bs →
        subContains [21, 7] (pre2 ++ bs) = false ∧
          subUnpack [21, 7] (pre2 ++ bs) = .notInSubspace) :=
  C7_subspace [21, 7] [21, 7, 0]

end LexGo
